import Mathlib

/-!
Strassen versus classical matrix multiplication.

A shallow embedding of the two benchmark programs
`matrix-multiplication-comparison/src/StrassensVsIterative.cpp` (variant 1, entries of
type `int`) and `matrix-multiplication/src/StrassensVsIterative.cpp` (variant 2, entries of
type `long long`), followed by theorems about them.

Conventions of the embedding.

* A `vector<vector<int>>` is a list of rows, `List (List Int)`.
* A counted loop `for (int i = 0; i < n; i++) body` is `forLoop n body`, which threads the
  loop state through the iterations `0, 1, ..., n - 1` in that order.
* `C[i][j]` read is `getEntry C i j`, `C[i][j] = v` is `setEntry C i j v`.  On the
  square inputs every theorem below is about, all indices are in range; outside the range a
  read yields `0` and a write does nothing.  Twins with checked accesses (`addChecked`,
  `strassenChecked`, ...) stop with a fault at the first access out of range.
* Every arithmetic operation of the source is followed by the reduction `w : Int → Int` of
  the entry type.  `w = id` is exact integer arithmetic; `wrap 32` and `wrap 64` are the
  two's complement reductions of `int` and `long long`.
* `strassen` recurses on operands of half the size without a structural argument, so it is
  embedded with a fuel parameter; with no fuel left the result is `none`.
-/

namespace Performance

/-! ## Data model -/

/-- The matrix container `vector<vector<int>>` (`vector<vector<long long>>` in variant 2). -/
abbrev Matrix := List (List Int)

/-- Two's complement reduction of an integer to a signed machine integer of `bits` bits. -/
def wrap (bits : Nat) (x : Int) : Int :=
  (x + 2 ^ (bits - 1)) % 2 ^ bits - 2 ^ (bits - 1)

/-- The loop `for (int i = 0; i < n; i++) s = body i s`. -/
def forLoop {σ : Type} : Nat → (Nat → σ → σ) → σ → σ
  | 0, _, s => s
  | n + 1, body, s => body n (forLoop n body s)

/-- The constructor call `Matrix C(n, vector<int>(n))`: `n` rows of `n` zeros. -/
def newMatrix (n : Nat) : Matrix :=
  List.replicate n (List.replicate n 0)

/-- The read `M[i][j]`. -/
def getEntry (M : Matrix) (i j : Nat) : Int :=
  (M.getD i []).getD j 0

/-- The write `M[i][j] = v`. -/
def setEntry (M : Matrix) (i j : Nat) (v : Int) : Matrix :=
  M.set i ((M.getD i []).set j v)

/-- The matrix invariant: `n` rows, every row of length `n`. -/
def IsSquare (n : Nat) (M : Matrix) : Prop :=
  M.length = n ∧ ∀ row ∈ M, row.length = n

instance (n : Nat) (M : Matrix) : Decidable (IsSquare n M) := by
  unfold IsSquare; infer_instance

/-! ## Random matrix -/

/-- The function `generateMatrix(n)`, lines 15-21 of variant 1 and 16-22 of variant 2.  The source of
pseudo-random numbers is the sequence `rand`; the state threaded through the loops is the
matrix together with the number of values drawn so far, and `%` is the truncating
remainder of C++. -/
def generateMatrix (rand : Nat → Int) (n : Nat) : Matrix × Nat :=
  forLoop n (fun i s =>
    forLoop n (fun j s => (setEntry s.1 i j (Int.tmod (rand s.2) 10), s.2 + 1)) s)
    (newMatrix n, 0)

/-! ## Classical multiplication -/

/-- The function `classicalMultiply(A, B)`, lines 25-35 of variant 1 and 26-36 of variant 2: the loops
run over the row `i`, then the contraction index `k`, then the column `j`. -/
def classicalMultiply (w : Int → Int) (A B : Matrix) : Matrix :=
  let n := A.length
  forLoop n (fun i C =>
    forLoop n (fun k C =>
      forLoop n (fun j C =>
        setEntry C i j (w (getEntry C i j + w (getEntry A i k * getEntry B k j)))) C) C)
    (newMatrix n)

/-- The same loops as `classicalMultiply`, with a counter of the scalar multiplications
`A[i][k] * B[k][j]` performed. -/
def classicalMultiplyCount (w : Int → Int) (A B : Matrix) : Matrix × Nat :=
  let n := A.length
  forLoop n (fun i s =>
    forLoop n (fun k s =>
      forLoop n (fun j s =>
        (setEntry s.1 i j (w (getEntry s.1 i j + w (getEntry A i k * getEntry B k j))),
          s.2 + 1)) s) s)
    (newMatrix n, 0)

/-! ## Elementwise arithmetic -/

/-- The function `add(A, B)`, lines 39-46. -/
def add (w : Int → Int) (A B : Matrix) : Matrix :=
  let n := A.length
  forLoop n (fun i C =>
    forLoop n (fun j C => setEntry C i j (w (getEntry A i j + getEntry B i j))) C)
    (newMatrix n)

/-- The function `subtract(A, B)`, lines 48-55. -/
def subtract (w : Int → Int) (A B : Matrix) : Matrix :=
  let n := A.length
  forLoop n (fun i C =>
    forLoop n (fun j C => setEntry C i j (w (getEntry A i j - getEntry B i j))) C)
    (newMatrix n)

/-! ## Strassen -/

/-- The eight quadrant matrices declared at lines 70-73. -/
structure Quadrants where
  A11 : Matrix
  A12 : Matrix
  A21 : Matrix
  A22 : Matrix
  B11 : Matrix
  B12 : Matrix
  B21 : Matrix
  B22 : Matrix

/-- The quadrant split, lines 70-87: eight `k x k` matrices filled in one loop nest. -/
def splitQuadrants (k : Nat) (A B : Matrix) : Quadrants :=
  forLoop k (fun i Q =>
    forLoop k (fun j Q =>
      { A11 := setEntry Q.A11 i j (getEntry A i j)
        A12 := setEntry Q.A12 i j (getEntry A i (j + k))
        A21 := setEntry Q.A21 i j (getEntry A (i + k) j)
        A22 := setEntry Q.A22 i j (getEntry A (i + k) (j + k))
        B11 := setEntry Q.B11 i j (getEntry B i j)
        B12 := setEntry Q.B12 i j (getEntry B i (j + k))
        B21 := setEntry Q.B21 i j (getEntry B (i + k) j)
        B22 := setEntry Q.B22 i j (getEntry B (i + k) (j + k)) }) Q)
    { A11 := newMatrix k, A12 := newMatrix k, A21 := newMatrix k, A22 := newMatrix k
      B11 := newMatrix k, B12 := newMatrix k, B21 := newMatrix k, B22 := newMatrix k }

/-- The reassembly, lines 102-110: the four result quadrants are written into a fresh
`n x n` matrix at the offsets `(0,0)`, `(0,k)`, `(k,0)` and `(k,k)`. -/
def assemble (n k : Nat) (C11 C12 C21 C22 : Matrix) : Matrix :=
  forLoop k (fun i C =>
    forLoop k (fun j C =>
      setEntry (setEntry (setEntry (setEntry C i j (getEntry C11 i j))
        i (j + k) (getEntry C12 i j))
        (i + k) j (getEntry C21 i j))
        (i + k) (j + k) (getEntry C22 i j)) C)
    (newMatrix n)

/-- The operands of the seven recursive calls `M1, ..., M7`, lines 89-95, in that order. -/
def strassenOperands (w : Int → Int) (A B : Matrix) : List (Matrix × Matrix) :=
  let k := A.length / 2
  let Q := splitQuadrants k A B
  [(add w Q.A11 Q.A22, add w Q.B11 Q.B22),
   (add w Q.A21 Q.A22, Q.B11),
   (Q.A11, subtract w Q.B12 Q.B22),
   (Q.A22, subtract w Q.B21 Q.B11),
   (add w Q.A11 Q.A12, Q.B22),
   (subtract w Q.A21 Q.A11, add w Q.B11 Q.B12),
   (subtract w Q.A12 Q.A22, add w Q.B21 Q.B22)]

/-- The recombination of the seven products and the reassembly of the result,
lines 97-112. -/
def strassenCombine (w : Int → Int) (n : Nat) (M1 M2 M3 M4 M5 M6 M7 : Matrix) : Matrix :=
  let k := n / 2
  let C11 := add w (subtract w (add w M1 M4) M5) M7
  let C12 := add w M3 M5
  let C21 := add w M2 M4
  let C22 := add w (subtract w (add w M1 M3) M2) M6
  assemble n k C11 C12 C21 C22

/-- The tree of calls of one run of `strassen`: a call that takes the base case, or a call
on operands with `n` rows together with the trees of its seven recursive calls, in the
order `M1, ..., M7`. -/
inductive CallTree where
  | base : CallTree
  | node (n : Nat) (t1 t2 t3 t4 t5 t6 t7 : CallTree) : CallTree
  deriving DecidableEq

namespace CallTree

/-- The number of levels of recursion below the call at the root. -/
def depth : CallTree → Nat
  | base => 0
  | node _ t1 t2 t3 t4 t5 t6 t7 =>
    1 + max t1.depth (max t2.depth (max t3.depth (max t4.depth
      (max t5.depth (max t6.depth t7.depth)))))

/-- The number of base-case scalar multiplications `A[0][0] * B[0][0]` in the tree. -/
def muls : CallTree → Nat
  | base => 1
  | node _ t1 t2 t3 t4 t5 t6 t7 =>
    t1.muls + t2.muls + t3.muls + t4.muls + t5.muls + t6.muls + t7.muls

/-- The complete tree of a run on operands of size `2 ^ p`. -/
def full : Nat → CallTree
  | 0 => base
  | p + 1 => node (2 ^ (p + 1)) (full p) (full p) (full p) (full p) (full p) (full p) (full p)

end CallTree

/-- The function `strassen(A, B)`, lines 59-113, with `fuel` bounding the nesting of calls.  The result
is the returned matrix together with the tree of calls made. -/
def strassenFuel (w : Int → Int) : Nat → Matrix → Matrix → Option (Matrix × CallTree)
  | 0, _, _ => none
  | fuel + 1, A, B =>
    let n := A.length
    if n = 1 then
      some (setEntry (newMatrix 1) 0 0 (w (getEntry A 0 0 * getEntry B 0 0)), CallTree.base)
    else
      match (strassenOperands w A B).map (fun XY => strassenFuel w fuel XY.1 XY.2) with
      | [some M1, some M2, some M3, some M4, some M5, some M6, some M7] =>
        some (strassenCombine w n M1.1 M2.1 M3.1 M4.1 M5.1 M6.1 M7.1,
          CallTree.node n M1.2 M2.2 M3.2 M4.2 M5.2 M6.2 M7.2)
      | _ => none

/-- The function `strassen(A, B)` run with fuel that suffices for every input with at least one row;
`none` when the recursion does not reach the base case. -/
def strassen (w : Int → Int) (A B : Matrix) : Option Matrix :=
  (strassenFuel w (A.length + 1) A B).map Prod.fst

/-! ## Checked element access

The functions above read `0` outside a matrix and ignore writes outside it.  The checked
twins below follow the same source lines with every element access tested against the
sizes of the vectors involved; a run stops with a fault at the first access out of range. -/

/-- Why a checked run stops without a result. -/
inductive Fault where
  | outOfRange : Fault
  | outOfFuel : Fault
  deriving DecidableEq

/-- The checked read `M[i][j]`: `i` must be a row of `M` and `j` a position in that row. -/
def readEntry (M : Matrix) (i j : Nat) : Except Fault Int :=
  if i < M.length ∧ j < (M.getD i []).length then .ok (getEntry M i j)
  else .error Fault.outOfRange

/-- The checked write `M[i][j] = v`. -/
def writeEntry (M : Matrix) (i j : Nat) (v : Int) : Except Fault Matrix :=
  if i < M.length ∧ j < (M.getD i []).length then .ok (setEntry M i j v)
  else .error Fault.outOfRange

/-- The loop `for (int i = 0; i < n; i++)` with a body that may stop with a fault. -/
def forLoopM {σ : Type} : Nat → (Nat → σ → Except Fault σ) → σ → Except Fault σ
  | 0, _, s => .ok s
  | n + 1, body, s => (forLoopM n body s).bind (body n)

/-- The function `add(A, B)`, lines 39-46, with checked accesses. -/
def addChecked (w : Int → Int) (A B : Matrix) : Except Fault Matrix :=
  let n := A.length
  forLoopM n (fun i C =>
    forLoopM n (fun j C =>
      (readEntry A i j).bind fun a =>
      (readEntry B i j).bind fun b =>
      writeEntry C i j (w (a + b))) C)
    (newMatrix n)

/-- The function `subtract(A, B)`, lines 48-55, with checked accesses. -/
def subtractChecked (w : Int → Int) (A B : Matrix) : Except Fault Matrix :=
  let n := A.length
  forLoopM n (fun i C =>
    forLoopM n (fun j C =>
      (readEntry A i j).bind fun a =>
      (readEntry B i j).bind fun b =>
      writeEntry C i j (w (a - b))) C)
    (newMatrix n)

/-- The function `classicalMultiply(A, B)`, lines 25-35, with checked accesses. -/
def classicalMultiplyChecked (w : Int → Int) (A B : Matrix) : Except Fault Matrix :=
  let n := A.length
  forLoopM n (fun i C =>
    forLoopM n (fun k C =>
      forLoopM n (fun j C =>
        (readEntry C i j).bind fun c =>
        (readEntry A i k).bind fun a =>
        (readEntry B k j).bind fun b =>
        writeEntry C i j (w (c + w (a * b)))) C) C)
    (newMatrix n)

/-- The quadrant split, lines 70-87, with checked accesses. -/
def splitQuadrantsChecked (k : Nat) (A B : Matrix) : Except Fault Quadrants :=
  forLoopM k (fun i Q =>
    forLoopM k (fun j Q =>
      (readEntry A i j).bind fun a11 =>
      (writeEntry Q.A11 i j a11).bind fun A11 =>
      (readEntry A i (j + k)).bind fun a12 =>
      (writeEntry Q.A12 i j a12).bind fun A12 =>
      (readEntry A (i + k) j).bind fun a21 =>
      (writeEntry Q.A21 i j a21).bind fun A21 =>
      (readEntry A (i + k) (j + k)).bind fun a22 =>
      (writeEntry Q.A22 i j a22).bind fun A22 =>
      (readEntry B i j).bind fun b11 =>
      (writeEntry Q.B11 i j b11).bind fun B11 =>
      (readEntry B i (j + k)).bind fun b12 =>
      (writeEntry Q.B12 i j b12).bind fun B12 =>
      (readEntry B (i + k) j).bind fun b21 =>
      (writeEntry Q.B21 i j b21).bind fun B21 =>
      (readEntry B (i + k) (j + k)).bind fun b22 =>
      (writeEntry Q.B22 i j b22).bind fun B22 =>
      .ok { A11 := A11, A12 := A12, A21 := A21, A22 := A22
            B11 := B11, B12 := B12, B21 := B21, B22 := B22 }) Q)
    { A11 := newMatrix k, A12 := newMatrix k, A21 := newMatrix k, A22 := newMatrix k
      B11 := newMatrix k, B12 := newMatrix k, B21 := newMatrix k, B22 := newMatrix k }

/-- The reassembly, lines 102-110, with checked accesses. -/
def assembleChecked (n k : Nat) (C11 C12 C21 C22 : Matrix) : Except Fault Matrix :=
  forLoopM k (fun i C =>
    forLoopM k (fun j C =>
      (readEntry C11 i j).bind fun c11 =>
      (writeEntry C i j c11).bind fun C =>
      (readEntry C12 i j).bind fun c12 =>
      (writeEntry C i (j + k) c12).bind fun C =>
      (readEntry C21 i j).bind fun c21 =>
      (writeEntry C (i + k) j c21).bind fun C =>
      (readEntry C22 i j).bind fun c22 =>
      writeEntry C (i + k) (j + k) c22) C)
    (newMatrix n)

/-- The function `strassen(A, B)`, lines 59-113, with checked accesses and with `fuel`
bounding the nesting of calls. -/
def strassenChecked (w : Int → Int) : Nat → Matrix → Matrix → Except Fault Matrix
  | 0, _, _ => .error Fault.outOfFuel
  | fuel + 1, A, B =>
    let n := A.length
    if n = 1 then
      (readEntry A 0 0).bind fun a =>
      (readEntry B 0 0).bind fun b =>
      writeEntry (newMatrix 1) 0 0 (w (a * b))
    else
      let k := n / 2
      (splitQuadrantsChecked k A B).bind fun Q =>
      (addChecked w Q.A11 Q.A22).bind fun X1 =>
      (addChecked w Q.B11 Q.B22).bind fun Y1 =>
      (strassenChecked w fuel X1 Y1).bind fun M1 =>
      (addChecked w Q.A21 Q.A22).bind fun X2 =>
      (strassenChecked w fuel X2 Q.B11).bind fun M2 =>
      (subtractChecked w Q.B12 Q.B22).bind fun Y3 =>
      (strassenChecked w fuel Q.A11 Y3).bind fun M3 =>
      (subtractChecked w Q.B21 Q.B11).bind fun Y4 =>
      (strassenChecked w fuel Q.A22 Y4).bind fun M4 =>
      (addChecked w Q.A11 Q.A12).bind fun X5 =>
      (strassenChecked w fuel X5 Q.B22).bind fun M5 =>
      (subtractChecked w Q.A21 Q.A11).bind fun X6 =>
      (addChecked w Q.B11 Q.B12).bind fun Y6 =>
      (strassenChecked w fuel X6 Y6).bind fun M6 =>
      (subtractChecked w Q.A12 Q.A22).bind fun X7 =>
      (addChecked w Q.B21 Q.B22).bind fun Y7 =>
      (strassenChecked w fuel X7 Y7).bind fun M7 =>
      (addChecked w M1 M4).bind fun S1 =>
      (subtractChecked w S1 M5).bind fun S2 =>
      (addChecked w S2 M7).bind fun C11 =>
      (addChecked w M3 M5).bind fun C12 =>
      (addChecked w M2 M4).bind fun C21 =>
      (addChecked w M1 M3).bind fun S3 =>
      (subtractChecked w S3 M2).bind fun S4 =>
      (addChecked w S4 M6).bind fun C22 =>
      assembleChecked n k C11 C12 C21 C22

/-! ## Benchmark driver of variant 2 -/

/-- The timing loops of `main`, lines 43-65 of variant 2.  `time i power` is the elapsed
time `classicalTime` measured in trial `i` (counted from `0`) for the size `2 ^ power`; the
clock is outside the program, and the matrices generated and multiplied between two clock
readings do not reach the report.  The accumulator `results` is a `vector<int>`, so that
`results[power - 1] += classicalTime` reduces the sum to 32 bits. -/
def accumulateResults (trials powers : Nat) (time : Nat → Nat → Int) : List Int :=
  forLoop trials (fun i results =>
    forLoop powers (fun q results =>
      let power := q + 1
      results.set (power - 1) (wrap 32 (results.getD (power - 1) 0 + time i power)))
      results)
    (List.replicate powers 0)

/-- The text written to `results/output_data.csv`, lines 67-79 of variant 2: `1 << (i + 1)`
is a shift of the `int` 1 and `results[i] / trials` is the truncating division of C++. -/
def writeReport (trials powers : Nat) (results : List Int) : String :=
  let out := "Name"
  let out := forLoop powers (fun i out => out ++ "," ++ toString (wrap 32 (2 ^ (i + 1)))) out
  let out := out ++ "\n"
  let out := out ++ "Classical"
  let out := forLoop powers
    (fun i out => out ++ "," ++ toString (Int.tdiv (results.getD i 0) trials)) out
  out ++ "\n"

/-- The content of the report file after a run of `main` of variant 2 with `trials` trials
over the sizes `2 ^ 1, ..., 2 ^ powers` (`trials = 5` and `powers = 12` in the source). -/
def mainReport (trials powers : Nat) (time : Nat → Nat → Int) : String :=
  writeReport trials powers (accumulateResults trials powers time)

/-! ## Notions of the specification and of the proofs -/

/-- The identity matrix of size `n`. -/
def identity (n : Nat) : Matrix :=
  (List.range n).map fun i => (List.range n).map fun j => if i = j then 1 else 0

/-- The all-zero matrix of size `n`. -/
def zero (n : Nat) : Matrix :=
  List.replicate n (List.replicate n 0)

/-- The definitional loop order of the classical product, as the specification words it:
the loops run over the row `i`, then the column `j`, then the contraction index `k`. -/
def classicalMultiplyIJK (w : Int → Int) (A B : Matrix) : Matrix :=
  let n := A.length
  forLoop n (fun i C =>
    forLoop n (fun j C =>
      forLoop n (fun k C =>
        setEntry C i j (w (getEntry C i j + w (getEntry A i k * getEntry B k j)))) C) C)
    (newMatrix n)

/-- The transformation `T` of `n x n` matrices acts on the entry at `(r, c)` as `g r c`. -/
def Entrywise (n : Nat) (T : Matrix → Matrix) (g : Nat → Nat → Int → Int) : Prop :=
  ∀ C, IsSquare n C →
    IsSquare n (T C) ∧ ∀ r c, r < n → c < n → getEntry (T C) r c = g r c (getEntry C r c)

/-- The loop nest shared by `add`, `subtract` and the quadrant split: a fresh `m x m`
matrix whose entry `(i, j)` is set to `f i j`. -/
def fill (m : Nat) (f : Nat → Nat → Int) : Matrix :=
  forLoop m (fun i C => forLoop m (fun j C => setEntry C i j (f i j)) C) (newMatrix m)

/-- The entry of the quadrants `C11, C12, C21, C22` that the reassembly writes to the
position `(r, c)` with `r, c < 2 * k`. -/
def quadrantEntry (k : Nat) (C11 C12 C21 C22 : Matrix) (r c : Nat) : Int :=
  if r < k then (if c < k then getEntry C11 r c else getEntry C12 r (c - k))
  else (if c < k then getEntry C21 (r - k) c else getEntry C22 (r - k) (c - k))

/-- The matrix `X` is `k x k` with entry `f i j` at `(i, j)`. -/
def HasEntries (k : Nat) (X : Matrix) (f : Nat → Nat → Int) : Prop :=
  IsSquare k X ∧ ∀ i j, i < k → j < k → getEntry X i j = f i j

/-- The matrix `C` of `classicalMultiply(A, B)` at the moment when the loop over `i` has
completed `i0` iterations, the loop over `k` has completed `k0` iterations for the row `i0`,
and the loop over `j` has completed `j0` iterations for the row `i0` and the index `k0`. -/
def classicalMultiplyState (w : Int → Int) (A B : Matrix) (i0 k0 j0 : Nat) : Matrix :=
  let n := A.length
  forLoop j0 (fun j C =>
      setEntry C i0 j (w (getEntry C i0 j + w (getEntry A i0 k0 * getEntry B k0 j))))
    (forLoop k0 (fun k C =>
        forLoop n (fun j C =>
          setEntry C i0 j (w (getEntry C i0 j + w (getEntry A i0 k * getEntry B k j)))) C)
      (forLoop i0 (fun i C =>
          forLoop n (fun k C =>
            forLoop n (fun j C =>
              setEntry C i j (w (getEntry C i j + w (getEntry A i k * getEntry B k j)))) C) C)
        (newMatrix n)))

/-- The number of products accumulated in the entry `(r, c)` when `classicalMultiply` on
`n x n` operands is in the state `(i0, k0, j0)`. -/
def accumulated (n i0 k0 j0 r c : Nat) : Nat :=
  if r < i0 then n else if r = i0 then (if c < j0 then k0 + 1 else k0) else 0

/-- All entries with indices below `n` lie in `0..9`, as those of a generated matrix do. -/
def IsDigits (n : Nat) (M : Matrix) : Prop :=
  ∀ i, i < n → ∀ j, j < n → 0 ≤ getEntry M i j ∧ getEntry M i j ≤ 9

instance (n : Nat) (M : Matrix) : Decidable (IsDigits n M) := by
  unfold IsDigits; infer_instance

/-- The matrices `X` and `Y` are `k x k` and their entries agree modulo `2 ^ bits`. -/
def Congruent (bits k : Nat) (X Y : Matrix) : Prop :=
  IsSquare k X ∧ IsSquare k Y ∧
    ∀ i j, i < k → j < k → getEntry X i j ≡ getEntry Y i j [ZMOD 2 ^ bits]

/-! ## Loops -/

theorem forLoop_succ {σ : Type} (n : Nat) (body : Nat → σ → σ) (s : σ) :
    forLoop (n + 1) body s = body n (forLoop n body s) := rfl

theorem forLoop_skip {σ : Type} (n : Nat) (s : σ) : forLoop n (fun _ s => s) s = s := by
  induction n with
  | zero => rfl
  | succ n ih => simpa [forLoop_succ] using ih

/-- A loop whose body acts at the single index `i0` only. -/
theorem forLoop_single {σ : Type} (n i0 : Nat) (F : Nat → σ → σ) (s : σ) :
    forLoop n (fun i s => if i0 = i then F i s else s) s = if i0 < n then F i0 s else s := by
  induction n with
  | zero => simp [forLoop]
  | succ n ih =>
    rw [forLoop_succ, ih]
    by_cases h1 : i0 = n
    · subst h1; simp
    · by_cases h2 : i0 < n
      · have : i0 < n + 1 := by omega
        simp [h1, h2, this]
      · have : ¬ i0 < n + 1 := by omega
        simp [h1, h2, this]

/-- A component of the loop state that the body updates on its own evolves as a loop. -/
theorem forLoop_proj {σ τ : Type} (π : σ → τ) (n : Nat) (body : Nat → σ → σ)
    (body2 : Nat → τ → τ) (h : ∀ i s, i < n → π (body i s) = body2 i (π s)) (s : σ) :
    π (forLoop n body s) = forLoop n body2 (π s) := by
  induction n with
  | zero => rfl
  | succ n ih =>
    rw [forLoop_succ, forLoop_succ, h n _ (Nat.lt_succ_self n),
      ih (fun i s hi => h i s (Nat.lt_succ_of_lt hi))]

theorem forLoop_congr {σ : Type} (n : Nat) (body body2 : Nat → σ → σ)
    (h : ∀ i s, i < n → body i s = body2 i s) (s : σ) :
    forLoop n body s = forLoop n body2 s :=
  forLoop_proj id n body body2 h s

/-- Three nested loops whose body acts where the outer and the inner index are `r` and
`c`: what remains is the middle loop. -/
theorem forLoop_nest3 {σ : Type} (n1 n2 n3 r c : Nat) (F : Nat → Nat → Nat → σ → σ) (s : σ) :
    forLoop n1 (fun i s => forLoop n2 (fun k s =>
        forLoop n3 (fun j s => if r = i ∧ c = j then F i k j s else s) s) s) s =
      if r < n1 ∧ c < n3 then forLoop n2 (fun k s => F r k c s) s else s := by
  have inner : ∀ i s, forLoop n2 (fun k s =>
        forLoop n3 (fun j s => if r = i ∧ c = j then F i k j s else s) s) s =
      if r = i then (if c < n3 then forLoop n2 (fun k s => F i k c s) s else s) else s := by
    intro i s
    by_cases hri : r = i
    · simp only [hri, true_and, if_true]
      by_cases hc : c < n3
      · simp only [forLoop_single, hc, if_true]
      · simp only [forLoop_single, hc, if_false, forLoop_skip]
    · simp only [hri, false_and, if_false, forLoop_skip]
  rw [forLoop_congr n1 _ _ (fun i s _ => inner i s), forLoop_single]
  by_cases hr : r < n1 <;> by_cases hc : c < n3 <;> simp [hr, hc]

/-- Two nested loops whose body acts where the indices are `r` and `c`. -/
theorem forLoop_nest2 {σ : Type} (n1 n2 r c : Nat) (F : Nat → Nat → σ → σ) (s : σ) :
    forLoop n1 (fun i s => forLoop n2 (fun j s => if r = i ∧ c = j then F i j s else s) s) s =
      if r < n1 ∧ c < n2 then F r c s else s := by
  have inner : ∀ i s, forLoop n2 (fun j s => if r = i ∧ c = j then F i j s else s) s =
      if r = i then (if c < n2 then F i c s else s) else s := by
    intro i s
    by_cases hri : r = i
    · simp only [hri, true_and, if_true, forLoop_single]
    · simp only [hri, false_and, if_false, forLoop_skip]
  rw [forLoop_congr n1 _ _ (fun i s _ => inner i s), forLoop_single]
  by_cases hr : r < n1 <;> by_cases hc : c < n2 <;> simp [hr, hc]

/-- An accumulating loop over exact integers is a finite sum. -/
theorem forLoop_sum (n : Nat) (f : Nat → Int) (v : Int) :
    forLoop n (fun k v => v + f k) v = v + ∑ k in Finset.range n, f k := by
  induction n with
  | zero => simp [forLoop]
  | succ n ih => rw [forLoop_succ, ih, Finset.sum_range_succ]; ring

/-! ## Entries and shapes -/

theorem isSquare_newMatrix (n : Nat) : IsSquare n (newMatrix n) := by
  constructor
  · simp [newMatrix]
  · intro row hrow
    have := List.eq_of_mem_replicate hrow
    simp [this]

theorem getEntry_newMatrix (n i j : Nat) : getEntry (newMatrix n) i j = 0 := by
  unfold getEntry newMatrix
  by_cases hi : i < n
  · by_cases hj : j < n <;> simp [List.getD, List.getElem?_replicate, hi, hj]
  · simp [List.getD, List.getElem?_replicate, hi]

theorem isSquare_row {n : Nat} {M : Matrix} (h : IsSquare n M) {i : Nat} (hi : i < n) :
    (M.getD i []).length = n := by
  have hl : i < M.length := by rw [h.1]; exact hi
  rw [List.getD_eq_getElem _ _ hl]
  exact h.2 _ (List.getElem_mem hl)

theorem isSquare_setEntry {n : Nat} {M : Matrix} (h : IsSquare n M) (i j : Nat) (v : Int) :
    IsSquare n (setEntry M i j v) := by
  constructor
  · simp [setEntry, h.1]
  · intro row hrow
    unfold setEntry at hrow
    by_cases hi : i < n
    · rcases List.mem_or_eq_of_mem_set hrow with hm | he
      · exact h.2 _ hm
      · rw [he, List.length_set]
        exact isSquare_row h hi
    · rw [List.set_eq_of_length_le (by rw [h.1]; omega)] at hrow
      exact h.2 _ hrow

theorem getEntry_setEntry {n : Nat} {M : Matrix} (h : IsSquare n M) (i j : Nat) (v : Int)
    {r c : Nat} (hr : r < n) (hc : c < n) :
    getEntry (setEntry M i j v) r c = if r = i ∧ c = j then v else getEntry M r c := by
  have hrl : r < M.length := by rw [h.1]; exact hr
  unfold getEntry setEntry
  by_cases hri : r = i
  · subst hri
    have hrow : (M[r]).length = n := h.2 _ (List.getElem_mem hrl)
    by_cases hcj : c = j
    · subst hcj
      simp [List.getD, List.getElem?_set, hrl, hrow, hc]
    · have hcj2 : ¬ j = c := fun e => hcj e.symm
      simp [List.getD, List.getElem?_set, hrl, hcj, hcj2]
  · have hri2 : ¬ i = r := fun e => hri e.symm
    simp [List.getD, List.getElem?_set, hri, hri2]

/-- Square matrices of the same size with the same entries are equal. -/
theorem ext_of_getEntry {n : Nat} {M N : Matrix} (hM : IsSquare n M) (hN : IsSquare n N)
    (h : ∀ r c, r < n → c < n → getEntry M r c = getEntry N r c) : M = N := by
  apply List.ext_getElem (by rw [hM.1, hN.1])
  intro r h1 h2
  have hr : r < n := by rw [← hM.1]; exact h1
  have hMr : (M[r]).length = n := hM.2 _ (List.getElem_mem h1)
  have hNr : (N[r]).length = n := hN.2 _ (List.getElem_mem h2)
  apply List.ext_getElem (by rw [hMr, hNr])
  intro c h3 h4
  have hc : c < n := by rw [← hMr]; exact h3
  have := h r c hr hc
  simpa [getEntry, List.getD, h1, h2, h3, h4] using this

/-! ## Entrywise loops

A loop body that writes entries of the matrix it is given, each new entry computed from
the old value of the same entry, acts on every entry separately.  `Entrywise n T g` says
that `T` keeps `n x n` matrices `n x n` and sends the entry `v` at `(r, c)` to `g r c v`. -/

theorem Entrywise.setEntry (n i j : Nat) (F : Int → Int) :
    Entrywise n (fun C => setEntry C i j (F (getEntry C i j)))
      (fun r c v => if r = i ∧ c = j then F v else v) := by
  intro C hC
  refine ⟨isSquare_setEntry hC _ _ _, fun r c hr hc => ?_⟩
  rw [getEntry_setEntry hC _ _ _ hr hc]
  by_cases h : r = i ∧ c = j
  · obtain ⟨h1, h2⟩ := h
    subst h1; subst h2; simp
  · simp [h]

theorem Entrywise.comp {n : Nat} {T1 T2 : Matrix → Matrix} {g1 g2 : Nat → Nat → Int → Int}
    (h1 : Entrywise n T1 g1) (h2 : Entrywise n T2 g2) :
    Entrywise n (fun C => T2 (T1 C)) (fun r c v => g2 r c (g1 r c v)) := by
  intro C hC
  obtain ⟨s1, e1⟩ := h1 C hC
  obtain ⟨s2, e2⟩ := h2 _ s1
  exact ⟨s2, fun r c hr hc => by rw [e2 r c hr hc, e1 r c hr hc]⟩

theorem Entrywise.forLoop {n : Nat} (m : Nat) {b : Nat → Matrix → Matrix}
    {g : Nat → Nat → Nat → Int → Int} (h : ∀ i, i < m → Entrywise n (b i) (g i)) :
    Entrywise n (fun C => Performance.forLoop m b C)
      (fun r c v => Performance.forLoop m (fun i v => g i r c v) v) := by
  induction m with
  | zero => intro C hC; exact ⟨hC, fun _ _ _ _ => rfl⟩
  | succ m ih =>
    intro C hC
    obtain ⟨s1, e1⟩ := ih (fun i hi => h i (Nat.lt_succ_of_lt hi)) C hC
    obtain ⟨s2, e2⟩ := h m (Nat.lt_succ_self m) _ s1
    refine ⟨s2, fun r c hr hc => ?_⟩
    show getEntry (b m (Performance.forLoop m b C)) r c = _
    rw [e2 r c hr hc, e1 r c hr hc]
    rfl

/-! ## Filling a fresh matrix -/

theorem fill_entrywise (n m : Nat) (f : Nat → Nat → Int) :
    Entrywise n
      (fun C => forLoop m (fun i C => forLoop m (fun j C => setEntry C i j (f i j)) C) C)
      (fun r c v => if r < m ∧ c < m then f r c else v) := by
  have h := Entrywise.forLoop (n := n) m (b := fun i C =>
      forLoop m (fun j C => setEntry C i j (f i j)) C)
    (g := fun i r c v => forLoop m (fun j v => if r = i ∧ c = j then f i j else v) v)
    (fun i _ => Entrywise.forLoop m (fun j _ => Entrywise.setEntry n i j (fun _ => f i j)))
  intro C hC
  obtain ⟨h1, h2⟩ := h C hC
  refine ⟨h1, fun r c hr hc => ?_⟩
  rw [h2 r c hr hc]
  exact forLoop_nest2 m m r c (fun i j _ => f i j) _

theorem isSquare_fill (m : Nat) (f : Nat → Nat → Int) : IsSquare m (fill m f) :=
  (fill_entrywise m m f _ (isSquare_newMatrix m)).1

theorem getEntry_fill (m : Nat) (f : Nat → Nat → Int) {r c : Nat} (hr : r < m) (hc : c < m) :
    getEntry (fill m f) r c = f r c := by
  have := (fill_entrywise m m f _ (isSquare_newMatrix m)).2 r c hr hc
  simpa [fill, hr, hc] using this

/-! ## Elementwise arithmetic, entry by entry -/

theorem add_eq_fill (w : Int → Int) (A B : Matrix) :
    add w A B = fill A.length (fun i j => w (getEntry A i j + getEntry B i j)) := rfl

theorem subtract_eq_fill (w : Int → Int) (A B : Matrix) :
    subtract w A B = fill A.length (fun i j => w (getEntry A i j - getEntry B i j)) := rfl

theorem isSquare_add (w : Int → Int) {n : Nat} {A : Matrix} (hA : A.length = n) (B : Matrix) :
    IsSquare n (add w A B) := by
  rw [add_eq_fill, hA]; exact isSquare_fill _ _

theorem isSquare_subtract (w : Int → Int) {n : Nat} {A : Matrix} (hA : A.length = n)
    (B : Matrix) : IsSquare n (subtract w A B) := by
  rw [subtract_eq_fill, hA]; exact isSquare_fill _ _

theorem getEntry_add (w : Int → Int) {n : Nat} {A : Matrix} (hA : A.length = n) (B : Matrix)
    {r c : Nat} (hr : r < n) (hc : c < n) :
    getEntry (add w A B) r c = w (getEntry A r c + getEntry B r c) := by
  rw [add_eq_fill, hA]; exact getEntry_fill _ _ hr hc

theorem getEntry_subtract (w : Int → Int) {n : Nat} {A : Matrix} (hA : A.length = n)
    (B : Matrix) {r c : Nat} (hr : r < n) (hc : c < n) :
    getEntry (subtract w A B) r c = w (getEntry A r c - getEntry B r c) := by
  rw [subtract_eq_fill, hA]; exact getEntry_fill _ _ hr hc

/-! ## Classical multiplication, entry by entry -/

theorem classicalMultiply_entrywise (w : Int → Int) (A B : Matrix) (n m : Nat) :
    Entrywise n
      (fun C => forLoop m (fun i C => forLoop m (fun k C => forLoop m (fun j C =>
        setEntry C i j (w (getEntry C i j + w (getEntry A i k * getEntry B k j)))) C) C) C)
      (fun r c v => if r < m ∧ c < m then
        forLoop m (fun k v => w (v + w (getEntry A r k * getEntry B k c))) v else v) := by
  have h := Entrywise.forLoop (n := n) m
    (b := fun i C => forLoop m (fun k C => forLoop m (fun j C =>
      setEntry C i j (w (getEntry C i j + w (getEntry A i k * getEntry B k j)))) C) C)
    (g := fun i r c v => forLoop m (fun k v => forLoop m (fun j v =>
      if r = i ∧ c = j then w (v + w (getEntry A i k * getEntry B k j)) else v) v) v)
    (fun i _ => Entrywise.forLoop m (fun k _ => Entrywise.forLoop m (fun j _ =>
      Entrywise.setEntry n i j (fun v => w (v + w (getEntry A i k * getEntry B k j))))))
  intro C hC
  obtain ⟨h1, h2⟩ := h C hC
  refine ⟨h1, fun r c hr hc => ?_⟩
  rw [h2 r c hr hc]
  exact forLoop_nest3 m m m r c
    (fun i k j v => w (v + w (getEntry A i k * getEntry B k j))) _

theorem isSquare_classicalMultiply (w : Int → Int) {n : Nat} {A : Matrix} (hA : A.length = n)
    (B : Matrix) : IsSquare n (classicalMultiply w A B) := by
  have := (classicalMultiply_entrywise w A B n n _ (isSquare_newMatrix n)).1
  simpa [classicalMultiply, hA] using this

/-- The entry `(r, c)` of `classicalMultiply(A, B)` is the accumulation over `k` alone. -/
theorem getEntry_classicalMultiply_loop (w : Int → Int) {n : Nat} {A : Matrix}
    (hA : A.length = n) (B : Matrix) {r c : Nat} (hr : r < n) (hc : c < n) :
    getEntry (classicalMultiply w A B) r c =
      forLoop n (fun k v => w (v + w (getEntry A r k * getEntry B k c))) 0 := by
  have := (classicalMultiply_entrywise w A B n n _ (isSquare_newMatrix n)).2 r c hr hc
  simpa [classicalMultiply, hA, hr, hc, getEntry_newMatrix] using this

theorem getEntry_classicalMultiply {n : Nat} {A : Matrix} (hA : A.length = n) (B : Matrix)
    {r c : Nat} (hr : r < n) (hc : c < n) :
    getEntry (classicalMultiply id A B) r c =
      ∑ k in Finset.range n, getEntry A r k * getEntry B k c := by
  rw [getEntry_classicalMultiply_loop id hA B hr hc]
  have := forLoop_sum n (fun k => getEntry A r k * getEntry B k c) 0
  simpa using this

/-! ## Quadrants -/

theorem splitQuadrants_A11 (k : Nat) (A B : Matrix) :
    (splitQuadrants k A B).A11 = fill k (fun i j => getEntry A i j) :=
  forLoop_proj Quadrants.A11 k _ _
    (fun _ Q _ => forLoop_proj Quadrants.A11 k _ _ (fun _ _ _ => rfl) Q) _

theorem splitQuadrants_A12 (k : Nat) (A B : Matrix) :
    (splitQuadrants k A B).A12 = fill k (fun i j => getEntry A i (j + k)) :=
  forLoop_proj Quadrants.A12 k _ _
    (fun _ Q _ => forLoop_proj Quadrants.A12 k _ _ (fun _ _ _ => rfl) Q) _

theorem splitQuadrants_A21 (k : Nat) (A B : Matrix) :
    (splitQuadrants k A B).A21 = fill k (fun i j => getEntry A (i + k) j) :=
  forLoop_proj Quadrants.A21 k _ _
    (fun _ Q _ => forLoop_proj Quadrants.A21 k _ _ (fun _ _ _ => rfl) Q) _

theorem splitQuadrants_A22 (k : Nat) (A B : Matrix) :
    (splitQuadrants k A B).A22 = fill k (fun i j => getEntry A (i + k) (j + k)) :=
  forLoop_proj Quadrants.A22 k _ _
    (fun _ Q _ => forLoop_proj Quadrants.A22 k _ _ (fun _ _ _ => rfl) Q) _

theorem splitQuadrants_B11 (k : Nat) (A B : Matrix) :
    (splitQuadrants k A B).B11 = fill k (fun i j => getEntry B i j) :=
  forLoop_proj Quadrants.B11 k _ _
    (fun _ Q _ => forLoop_proj Quadrants.B11 k _ _ (fun _ _ _ => rfl) Q) _

theorem splitQuadrants_B12 (k : Nat) (A B : Matrix) :
    (splitQuadrants k A B).B12 = fill k (fun i j => getEntry B i (j + k)) :=
  forLoop_proj Quadrants.B12 k _ _
    (fun _ Q _ => forLoop_proj Quadrants.B12 k _ _ (fun _ _ _ => rfl) Q) _

theorem splitQuadrants_B21 (k : Nat) (A B : Matrix) :
    (splitQuadrants k A B).B21 = fill k (fun i j => getEntry B (i + k) j) :=
  forLoop_proj Quadrants.B21 k _ _
    (fun _ Q _ => forLoop_proj Quadrants.B21 k _ _ (fun _ _ _ => rfl) Q) _

theorem splitQuadrants_B22 (k : Nat) (A B : Matrix) :
    (splitQuadrants k A B).B22 = fill k (fun i j => getEntry B (i + k) (j + k)) :=
  forLoop_proj Quadrants.B22 k _ _
    (fun _ Q _ => forLoop_proj Quadrants.B22 k _ _ (fun _ _ _ => rfl) Q) _

/-! ## Reassembly -/

theorem assemble_entrywise (n k : Nat) (C11 C12 C21 C22 : Matrix) :
    Entrywise n
      (fun C => forLoop k (fun i C => forLoop k (fun j C =>
        setEntry (setEntry (setEntry (setEntry C i j (getEntry C11 i j))
          i (j + k) (getEntry C12 i j))
          (i + k) j (getEntry C21 i j))
          (i + k) (j + k) (getEntry C22 i j)) C) C)
      (fun r c v => if r < 2 * k ∧ c < 2 * k then quadrantEntry k C11 C12 C21 C22 r c
        else v) := by
  have h := Entrywise.forLoop (n := n) k
    (b := fun i C => forLoop k (fun j C =>
        setEntry (setEntry (setEntry (setEntry C i j (getEntry C11 i j))
          i (j + k) (getEntry C12 i j))
          (i + k) j (getEntry C21 i j))
          (i + k) (j + k) (getEntry C22 i j)) C)
    (g := fun i r c v => forLoop k (fun j v =>
      (if r = i + k ∧ c = j + k then getEntry C22 i j else
        (if r = i + k ∧ c = j then getEntry C21 i j else
          (if r = i ∧ c = j + k then getEntry C12 i j else
            (if r = i ∧ c = j then getEntry C11 i j else v)))) ) v)
    (fun i _ => Entrywise.forLoop k (fun j _ =>
      Entrywise.comp (Entrywise.comp (Entrywise.comp
        (Entrywise.setEntry n i j (fun _ => getEntry C11 i j))
        (Entrywise.setEntry n i (j + k) (fun _ => getEntry C12 i j)))
        (Entrywise.setEntry n (i + k) j (fun _ => getEntry C21 i j)))
        (Entrywise.setEntry n (i + k) (j + k) (fun _ => getEntry C22 i j))))
  intro C hC
  obtain ⟨h1, h2⟩ := h C hC
  refine ⟨h1, fun r c hr hc => ?_⟩
  rw [h2 r c hr hc]
  have hcomp : ∀ i v, i < k → forLoop k (fun j v =>
      (if r = i + k ∧ c = j + k then getEntry C22 i j else
        (if r = i + k ∧ c = j then getEntry C21 i j else
          (if r = i ∧ c = j + k then getEntry C12 i j else
            (if r = i ∧ c = j then getEntry C11 i j else v)))) ) v =
      forLoop k (fun j v =>
        if (if r < k then r else r - k) = i ∧ (if c < k then c else c - k) = j then
          (fun _ _ v => if r < 2 * k ∧ c < 2 * k then quadrantEntry k C11 C12 C21 C22 r c
            else v) i j v
        else v) v := by
    intro i v hi
    apply forLoop_congr
    intro j v hj
    unfold quadrantEntry
    by_cases hrk : r < k <;> by_cases hck : c < k
    · have e1 : ¬ r = i + k := by omega
      have e2 : ¬ c = j + k := by omega
      have e3 : r < 2 * k := by omega
      have e4 : c < 2 * k := by omega
      simp only [hrk, hck, e1, e2, e3, e4, if_true, if_false, false_and, and_false, and_self]
      by_cases e : r = i ∧ c = j
      · obtain ⟨rfl, rfl⟩ := e; simp
      · simp [e]
    · have e1 : ¬ r = i + k := by omega
      have e2 : ¬ c = j := by omega
      simp only [hrk, hck, e1, e2, if_true, if_false, false_and, and_false]
      by_cases e : r = i ∧ c = j + k
      · obtain ⟨rfl, rfl⟩ := e
        have e3 : r < 2 * k := by omega
        have e4 : j + k < 2 * k := by omega
        simp [e3, e4]
      · have e5 : ¬ (r = i ∧ c - k = j ∧ c < 2 * k) := by omega
        by_cases e6 : r = i ∧ c - k = j
        · have e7 : ¬ c < 2 * k := by omega
          have e8 : ¬ c = j + k := by omega
          simp [e6, e7, e8]
        · simp [e, e6]
    · have e1 : ¬ r = i := by omega
      have e2 : ¬ c = j + k := by omega
      simp only [hrk, hck, e1, e2, if_true, if_false, false_and, and_false]
      by_cases e : r = i + k ∧ c = j
      · obtain ⟨rfl, rfl⟩ := e
        have e3 : i + k < 2 * k := by omega
        have e4 : c < 2 * k := by omega
        simp [e3, e4]
      · by_cases e6 : r - k = i ∧ c = j
        · have e7 : ¬ r < 2 * k := by omega
          have e8 : ¬ r = i + k := by omega
          simp [e6, e7, e8]
        · simp [e, e6]
    · have e1 : ¬ r = i := by omega
      have e2 : ¬ c = j := by omega
      simp only [hrk, hck, e1, e2, if_true, if_false, false_and, and_false]
      by_cases e : r = i + k ∧ c = j + k
      · obtain ⟨rfl, rfl⟩ := e
        have e3 : i + k < 2 * k := by omega
        have e4 : j + k < 2 * k := by omega
        simp [e3, e4]
      · by_cases e6 : r - k = i ∧ c - k = j
        · have e7 : ¬ (r < 2 * k ∧ c < 2 * k) := by omega
          simp [e, e6, e7]
        · simp [e, e6]
  beta_reduce
  rw [forLoop_congr k _ _ (fun i v hi => hcomp i v hi), forLoop_nest2]
  by_cases hin : r < 2 * k ∧ c < 2 * k
  · have e1 : (if r < k then r else r - k) < k := by split_ifs <;> omega
    have e2 : (if c < k then c else c - k) < k := by split_ifs <;> omega
    simp [hin, e1, e2]
  · simp [hin]

theorem isSquare_assemble (n k : Nat) (C11 C12 C21 C22 : Matrix) :
    IsSquare n (assemble n k C11 C12 C21 C22) :=
  (assemble_entrywise n k C11 C12 C21 C22 _ (isSquare_newMatrix n)).1

theorem getEntry_assemble (n k : Nat) (C11 C12 C21 C22 : Matrix) {r c : Nat}
    (hr : r < n) (hc : c < n) :
    getEntry (assemble n k C11 C12 C21 C22) r c =
      if r < 2 * k ∧ c < 2 * k then quadrantEntry k C11 C12 C21 C22 r c else 0 := by
  have := (assemble_entrywise n k C11 C12 C21 C22 _ (isSquare_newMatrix n)).2 r c hr hc
  simpa [assemble, getEntry_newMatrix] using this

/-! ## Matrices given by their entries -/

theorem HasEntries.self {k : Nat} {X : Matrix} (h : IsSquare k X) :
    HasEntries k X (fun i j => getEntry X i j) :=
  ⟨h, fun _ _ _ _ => rfl⟩

theorem HasEntries.ext {k : Nat} {X Y : Matrix} {f g : Nat → Nat → Int}
    (hX : HasEntries k X f) (hY : HasEntries k Y g)
    (h : ∀ i j, i < k → j < k → f i j = g i j) : X = Y :=
  ext_of_getEntry hX.1 hY.1 fun i j hi hj => by rw [hX.2 i j hi hj, hY.2 i j hi hj, h i j hi hj]

theorem HasEntries.fill (k : Nat) (f : Nat → Nat → Int) : HasEntries k (fill k f) f :=
  ⟨isSquare_fill k f, fun _ _ hi hj => getEntry_fill k f hi hj⟩

theorem HasEntries.add (w : Int → Int) {k : Nat} {X Y : Matrix} {f g : Nat → Nat → Int}
    (hX : HasEntries k X f) (hY : HasEntries k Y g) :
    HasEntries k (add w X Y) (fun i j => w (f i j + g i j)) :=
  ⟨isSquare_add w hX.1.1 Y, fun i j hi hj => by
    rw [getEntry_add w hX.1.1 Y hi hj, hX.2 i j hi hj, hY.2 i j hi hj]⟩

theorem HasEntries.subtract (w : Int → Int) {k : Nat} {X Y : Matrix} {f g : Nat → Nat → Int}
    (hX : HasEntries k X f) (hY : HasEntries k Y g) :
    HasEntries k (subtract w X Y) (fun i j => w (f i j - g i j)) :=
  ⟨isSquare_subtract w hX.1.1 Y, fun i j hi hj => by
    rw [getEntry_subtract w hX.1.1 Y hi hj, hX.2 i j hi hj, hY.2 i j hi hj]⟩

theorem HasEntries.classicalMultiply {k : Nat} {X Y : Matrix} {f g : Nat → Nat → Int}
    (hX : HasEntries k X f) (hY : HasEntries k Y g) :
    HasEntries k (classicalMultiply id X Y)
      (fun i j => ∑ l in Finset.range k, f i l * g l j) :=
  ⟨isSquare_classicalMultiply id hX.1.1 Y, fun i j hi hj => by
    rw [getEntry_classicalMultiply hX.1.1 Y hi hj]
    apply Finset.sum_congr rfl
    intro l hl
    have hl2 : l < k := Finset.mem_range.mp hl
    rw [hX.2 i l hi hl2, hY.2 l j hl2 hj]⟩

theorem HasEntries.splitQuadrants (k : Nat) (A B : Matrix) :
    HasEntries k (splitQuadrants k A B).A11 (fun i j => getEntry A i j) ∧
    HasEntries k (splitQuadrants k A B).A12 (fun i j => getEntry A i (j + k)) ∧
    HasEntries k (splitQuadrants k A B).A21 (fun i j => getEntry A (i + k) j) ∧
    HasEntries k (splitQuadrants k A B).A22 (fun i j => getEntry A (i + k) (j + k)) ∧
    HasEntries k (splitQuadrants k A B).B11 (fun i j => getEntry B i j) ∧
    HasEntries k (splitQuadrants k A B).B12 (fun i j => getEntry B i (j + k)) ∧
    HasEntries k (splitQuadrants k A B).B21 (fun i j => getEntry B (i + k) j) ∧
    HasEntries k (splitQuadrants k A B).B22 (fun i j => getEntry B (i + k) (j + k)) := by
  rw [splitQuadrants_A11, splitQuadrants_A12, splitQuadrants_A21, splitQuadrants_A22,
    splitQuadrants_B11, splitQuadrants_B12, splitQuadrants_B21, splitQuadrants_B22]
  exact ⟨HasEntries.fill _ _, HasEntries.fill _ _, HasEntries.fill _ _, HasEntries.fill _ _,
    HasEntries.fill _ _, HasEntries.fill _ _, HasEntries.fill _ _, HasEntries.fill _ _⟩

/-! ## The recursion of `strassen` -/

theorem strassenFuel_base (w : Int → Int) (fuel : Nat) {A : Matrix} (hA : A.length = 1)
    (B : Matrix) :
    strassenFuel w (fuel + 1) A B =
      some ([[w (getEntry A 0 0 * getEntry B 0 0)]], CallTree.base) := by
  simp [strassenFuel, hA, setEntry, newMatrix]

theorem strassenFuel_step (w : Int → Int) (fuel : Nat) {A : Matrix} (hA : A.length ≠ 1)
    (B : Matrix) {M1 M2 M3 M4 M5 M6 M7 : Matrix × CallTree}
    (h : (strassenOperands w A B).map (fun XY => strassenFuel w fuel XY.1 XY.2) =
      [some M1, some M2, some M3, some M4, some M5, some M6, some M7]) :
    strassenFuel w (fuel + 1) A B =
      some (strassenCombine w A.length M1.1 M2.1 M3.1 M4.1 M5.1 M6.1 M7.1,
        CallTree.node A.length M1.2 M2.2 M3.2 M4.2 M5.2 M6.2 M7.2) := by
  simp only [strassenFuel, hA, if_false, h]

theorem strassenOperands_length (w : Int → Int) (A B : Matrix) :
    (strassenOperands w A B).length = 7 := rfl

theorem strassenOperands_square (w : Int → Int) (A B : Matrix) :
    ∀ XY ∈ strassenOperands w A B,
      IsSquare (A.length / 2) XY.1 ∧ IsSquare (A.length / 2) XY.2 := by
  obtain ⟨a11, a12, a21, a22, b11, b12, b21, b22⟩ :=
    HasEntries.splitQuadrants (A.length / 2) A B
  intro XY hXY
  simp only [strassenOperands, List.mem_cons, List.mem_singleton, List.not_mem_nil,
    or_false] at hXY
  rcases hXY with h | h | h | h | h | h | h <;> subst h
  · exact ⟨isSquare_add w a11.1.1 _, isSquare_add w b11.1.1 _⟩
  · exact ⟨isSquare_add w a21.1.1 _, b11.1⟩
  · exact ⟨a11.1, isSquare_subtract w b12.1.1 _⟩
  · exact ⟨a22.1, isSquare_subtract w b21.1.1 _⟩
  · exact ⟨isSquare_add w a11.1.1 _, b22.1⟩
  · exact ⟨isSquare_subtract w a21.1.1 _, isSquare_add w b11.1.1 _⟩
  · exact ⟨isSquare_subtract w a12.1.1 _, isSquare_add w b21.1.1 _⟩

theorem isSquare_strassenCombine (w : Int → Int) (n : Nat) (M1 M2 M3 M4 M5 M6 M7 : Matrix) :
    IsSquare n (strassenCombine w n M1 M2 M3 M4 M5 M6 M7) :=
  isSquare_assemble _ _ _ _ _ _

theorem map_seven {α β : Type} (L : List α) (F : α → Option β) (P : β → Prop)
    (hL : L.length = 7) (h : ∀ x ∈ L, ∃ r, F x = some r ∧ P r) :
    ∃ r1 r2 r3 r4 r5 r6 r7,
      L.map F = [some r1, some r2, some r3, some r4, some r5, some r6, some r7] ∧
      P r1 ∧ P r2 ∧ P r3 ∧ P r4 ∧ P r5 ∧ P r6 ∧ P r7 := by
  match L, hL with
  | [x1, x2, x3, x4, x5, x6, x7], _ =>
    obtain ⟨r1, e1, p1⟩ := h x1 (by simp)
    obtain ⟨r2, e2, p2⟩ := h x2 (by simp)
    obtain ⟨r3, e3, p3⟩ := h x3 (by simp)
    obtain ⟨r4, e4, p4⟩ := h x4 (by simp)
    obtain ⟨r5, e5, p5⟩ := h x5 (by simp)
    obtain ⟨r6, e6, p6⟩ := h x6 (by simp)
    obtain ⟨r7, e7, p7⟩ := h x7 (by simp)
    exact ⟨r1, r2, r3, r4, r5, r6, r7, by simp [e1, e2, e3, e4, e5, e6, e7],
      p1, p2, p3, p4, p5, p6, p7⟩

theorem log_two_half {n : Nat} (h : 2 ≤ n) : Nat.log 2 n = Nat.log 2 (n / 2) + 1 :=
  Nat.log_of_one_lt_of_le (by norm_num) h

/-- With more fuel than `log2 n`, `strassen` on operands with `n >= 1` rows returns an
`n x n` matrix after `log2 n` levels of recursion. -/
theorem strassenFuel_total (w : Int → Int) :
    ∀ fuel n, 1 ≤ n → Nat.log 2 n < fuel → ∀ A B : Matrix, A.length = n →
      ∃ r, strassenFuel w fuel A B = some r ∧ (IsSquare n r.1 ∧ r.2.depth = Nat.log 2 n) := by
  intro fuel
  induction fuel with
  | zero => intro n _ h; omega
  | succ f ih =>
    intro n hn hlog A B hA
    by_cases h1 : n = 1
    · subst h1
      refine ⟨_, strassenFuel_base w f hA B, ?_, ?_⟩
      · exact ⟨rfl, by simp⟩
      · simp [CallTree.depth]
    · have h2 : 2 ≤ n := by omega
      have hlog2 := log_two_half h2
      have hk : 1 ≤ n / 2 := by omega
      have hsq := strassenOperands_square w A B
      rw [hA] at hsq
      obtain ⟨r1, r2, r3, r4, r5, r6, r7, hmap, p1, p2, p3, p4, p5, p6, p7⟩ :=
        map_seven (strassenOperands w A B) (fun XY => strassenFuel w f XY.1 XY.2)
          (fun r => IsSquare (n / 2) r.1 ∧ r.2.depth = Nat.log 2 (n / 2))
          (strassenOperands_length w A B)
          (fun XY hXY => ih (n / 2) hk (by omega) XY.1 XY.2 (hsq XY hXY).1.1)
      have hA1 : A.length ≠ 1 := by rw [hA]; exact h1
      refine ⟨_, strassenFuel_step w f hA1 B hmap, ?_, ?_⟩
      · rw [hA]; exact isSquare_strassenCombine _ _ _ _ _ _ _ _ _
      · rw [hlog2]
        simp only [CallTree.depth, p1.2, p2.2, p3.2, p4.2, p5.2, p6.2, p7.2, max_self]
        omega

/-- With at most `log2 n` fuel the recursion on operands with `n >= 1` rows does not reach
the base case. -/
theorem strassenFuel_short (w : Int → Int) :
    ∀ fuel n, 1 ≤ n → fuel ≤ Nat.log 2 n → ∀ A B : Matrix, A.length = n →
      strassenFuel w fuel A B = none := by
  intro fuel
  induction fuel with
  | zero => intro n _ _ A B _; rfl
  | succ f ih =>
    intro n hn hlog A B hA
    have h2 : 2 ≤ n := by
      by_contra hlt
      have : n = 1 := by omega
      subst this
      simp at hlog
    have hlog2 := log_two_half h2
    have hA1 : A.length ≠ 1 := by omega
    have hsq := strassenOperands_square w A B
    rw [hA] at hsq
    have hnone := ih (n / 2) (by omega) (by omega)
      (add w (splitQuadrants (A.length / 2) A B).A11 (splitQuadrants (A.length / 2) A B).A22)
      (add w (splitQuadrants (A.length / 2) A B).B11 (splitQuadrants (A.length / 2) A B).B22)
      (hsq (_, _) (by unfold strassenOperands; exact List.mem_cons_self _ _)).1.1
    simp only [strassenFuel, hA1, if_false, strassenOperands, List.map, hnone]

/-! ## Correctness of the recombination -/

theorem sum_range_two_mul (k : Nat) (f : Nat → Int) :
    ∑ l in Finset.range (2 * k), f l =
      ∑ l in Finset.range k, f l + ∑ l in Finset.range k, f (l + k) := by
  rw [two_mul, Finset.sum_range_add]
  congr 1
  exact Finset.sum_congr rfl fun l _ => by rw [Nat.add_comm]

theorem HasEntries.assemble {k : Nat} {C11 C12 C21 C22 : Matrix}
    {f11 f12 f21 f22 : Nat → Nat → Int}
    (h11 : HasEntries k C11 f11) (h12 : HasEntries k C12 f12)
    (h21 : HasEntries k C21 f21) (h22 : HasEntries k C22 f22) :
    HasEntries (2 * k) (Performance.assemble (2 * k) k C11 C12 C21 C22)
      (fun r c => if r < k then (if c < k then f11 r c else f12 r (c - k))
        else (if c < k then f21 (r - k) c else f22 (r - k) (c - k))) := by
  refine ⟨isSquare_assemble _ _ _ _ _ _, fun r c hr hc => ?_⟩
  rw [getEntry_assemble _ _ _ _ _ _ hr hc]
  simp only [hr, hc, and_self, if_true, quadrantEntry]
  by_cases h1 : r < k <;> by_cases h2 : c < k <;> simp only [h1, h2, if_true, if_false]
  · exact h11.2 _ _ h1 h2
  · exact h12.2 _ _ h1 (by omega)
  · exact h21.2 _ _ (by omega) h2
  · exact h22.2 _ _ (by omega) (by omega)

/-- One level of Strassen's recombination, applied to the exact products of the seven
operand pairs, is the exact product. -/
theorem strassenCombine_correct {k : Nat} {A B : Matrix}
    (hA : IsSquare (2 * k) A) (hB : IsSquare (2 * k) B) :
    strassenCombine id (2 * k)
      (classicalMultiply id
        (add id (splitQuadrants k A B).A11 (splitQuadrants k A B).A22)
        (add id (splitQuadrants k A B).B11 (splitQuadrants k A B).B22))
      (classicalMultiply id
        (add id (splitQuadrants k A B).A21 (splitQuadrants k A B).A22)
        (splitQuadrants k A B).B11)
      (classicalMultiply id (splitQuadrants k A B).A11
        (subtract id (splitQuadrants k A B).B12 (splitQuadrants k A B).B22))
      (classicalMultiply id (splitQuadrants k A B).A22
        (subtract id (splitQuadrants k A B).B21 (splitQuadrants k A B).B11))
      (classicalMultiply id
        (add id (splitQuadrants k A B).A11 (splitQuadrants k A B).A12)
        (splitQuadrants k A B).B22)
      (classicalMultiply id
        (subtract id (splitQuadrants k A B).A21 (splitQuadrants k A B).A11)
        (add id (splitQuadrants k A B).B11 (splitQuadrants k A B).B12))
      (classicalMultiply id
        (subtract id (splitQuadrants k A B).A12 (splitQuadrants k A B).A22)
        (add id (splitQuadrants k A B).B21 (splitQuadrants k A B).B22)) =
    classicalMultiply id A B := by
  obtain ⟨a11, a12, a21, a22, b11, b12, b21, b22⟩ := HasEntries.splitQuadrants k A B
  have m1 := HasEntries.classicalMultiply (HasEntries.add id a11 a22) (HasEntries.add id b11 b22)
  have m2 := HasEntries.classicalMultiply (HasEntries.add id a21 a22) b11
  have m3 := HasEntries.classicalMultiply a11 (HasEntries.subtract id b12 b22)
  have m4 := HasEntries.classicalMultiply a22 (HasEntries.subtract id b21 b11)
  have m5 := HasEntries.classicalMultiply (HasEntries.add id a11 a12) b22
  have m6 := HasEntries.classicalMultiply (HasEntries.subtract id a21 a11)
    (HasEntries.add id b11 b12)
  have m7 := HasEntries.classicalMultiply (HasEntries.subtract id a12 a22)
    (HasEntries.add id b21 b22)
  have c11 := HasEntries.add id (HasEntries.subtract id (HasEntries.add id m1 m4) m5) m7
  have c12 := HasEntries.add id m3 m5
  have c21 := HasEntries.add id m2 m4
  have c22 := HasEntries.add id (HasEntries.subtract id (HasEntries.add id m1 m3) m2) m6
  have hC := HasEntries.assemble c11 c12 c21 c22
  have hP := HasEntries.classicalMultiply (HasEntries.self hA) (HasEntries.self hB)
  have hk : 2 * k / 2 = k := by omega
  unfold strassenCombine
  simp only [hk]
  apply HasEntries.ext hC hP
  intro r c _ _
  simp only [id]
  rw [sum_range_two_mul]
  by_cases h1 : r < k <;> by_cases h2 : c < k <;> simp only [h1, h2, if_true, if_false]
  · simp only [← Finset.sum_add_distrib, ← Finset.sum_sub_distrib]
    exact Finset.sum_congr rfl fun l _ => by ring
  · have e2 : c - k + k = c := by omega
    simp only [e2, ← Finset.sum_add_distrib, ← Finset.sum_sub_distrib]
    exact Finset.sum_congr rfl fun l _ => by ring
  · have e1 : r - k + k = r := by omega
    simp only [e1, ← Finset.sum_add_distrib, ← Finset.sum_sub_distrib]
    exact Finset.sum_congr rfl fun l _ => by ring
  · have e1 : r - k + k = r := by omega
    have e2 : c - k + k = c := by omega
    simp only [e1, e2, ← Finset.sum_add_distrib, ← Finset.sum_sub_distrib]
    exact Finset.sum_congr rfl fun l _ => by ring

theorem hasEntries_singleton (x : Int) : HasEntries 1 [[x]] (fun _ _ => x) := by
  refine ⟨⟨rfl, by simp⟩, fun i j hi hj => ?_⟩
  have hi0 : i = 0 := by omega
  have hj0 : j = 0 := by omega
  subst hi0; subst hj0; rfl

/-- On `2 ^ p x 2 ^ p` operands and with more than `p` fuel, `strassen` returns the result
of `classicalMultiply`, and the calls it makes form the complete tree of depth `p`. -/
theorem strassenFuel_correct :
    ∀ p fuel, p < fuel → ∀ A B : Matrix, IsSquare (2 ^ p) A → IsSquare (2 ^ p) B →
      strassenFuel id fuel A B = some (classicalMultiply id A B, CallTree.full p) := by
  intro p
  induction p with
  | zero =>
    intro fuel hf A B hA hB
    obtain ⟨f, rfl⟩ : ∃ f, fuel = f + 1 := ⟨fuel - 1, by omega⟩
    rw [strassenFuel_base id f hA.1 B]
    have hP := HasEntries.classicalMultiply (HasEntries.self hA) (HasEntries.self hB)
    have hS := hasEntries_singleton (id (getEntry A 0 0 * getEntry B 0 0))
    have : [[id (getEntry A 0 0 * getEntry B 0 0)]] = classicalMultiply id A B := by
      apply HasEntries.ext hS hP
      intro i j hi hj
      have hi0 : i = 0 := by omega
      have hj0 : j = 0 := by omega
      subst hi0; subst hj0
      simp
    rw [this]; rfl
  | succ p ih =>
    intro fuel hf A B hA hB
    obtain ⟨f, rfl⟩ : ∃ f, fuel = f + 1 := ⟨fuel - 1, by omega⟩
    have hpow : (2 : Nat) ^ (p + 1) = 2 * 2 ^ p := by rw [pow_succ, Nat.mul_comm]
    have hpos : 0 < 2 ^ p := Nat.two_pow_pos p
    have hlen : A.length = 2 * 2 ^ p := by rw [hA.1, hpow]
    have hhalf : A.length / 2 = 2 ^ p := by omega
    have hA1 : A.length ≠ 1 := by omega
    have hsq := strassenOperands_square id A B
    rw [hhalf] at hsq
    have hmap : (strassenOperands id A B).map (fun XY => strassenFuel id f XY.1 XY.2) =
        (strassenOperands id A B).map
          (fun XY => some (classicalMultiply id XY.1 XY.2, CallTree.full p)) :=
      List.map_congr_left fun XY hXY =>
        ih f (by omega) XY.1 XY.2 (hsq XY hXY).1 (hsq XY hXY).2
    rw [strassenFuel_step id f hA1 B (hmap.trans rfl)]
    rw [hpow] at hA hB
    have hc := strassenCombine_correct hA hB
    simp only [hhalf]
    simp only [hlen]
    rw [hc]
    simp only [CallTree.full, hpow]

/-! ## The definitional loop order -/

/-- Three nested loops whose body acts where the two outer indices are `r` and `c`: what
remains is the inner loop. -/
theorem forLoop_nest3_inner {σ : Type} (n1 n2 n3 r c : Nat) (F : Nat → Nat → Nat → σ → σ)
    (s : σ) :
    forLoop n1 (fun i s => forLoop n2 (fun j s =>
        forLoop n3 (fun k s => if r = i ∧ c = j then F i k j s else s) s) s) s =
      if r < n1 ∧ c < n2 then forLoop n3 (fun k s => F r k c s) s else s := by
  have inner : ∀ i j s, forLoop n3 (fun k s => if r = i ∧ c = j then F i k j s else s) s =
      if r = i ∧ c = j then (fun i j s => forLoop n3 (fun k s => F i k j s) s) i j s
      else s := by
    intro i j s
    by_cases h : r = i ∧ c = j
    · simp only [h, and_self, if_true]
    · simp only [h, if_false, forLoop_skip]
  rw [forLoop_congr n1 _ _ (fun i s _ => forLoop_congr n2 _ _ (fun j s _ => inner i j s) s),
    forLoop_nest2]

theorem classicalMultiplyIJK_entrywise (w : Int → Int) (A B : Matrix) (n m : Nat) :
    Entrywise n
      (fun C => forLoop m (fun i C => forLoop m (fun j C => forLoop m (fun k C =>
        setEntry C i j (w (getEntry C i j + w (getEntry A i k * getEntry B k j)))) C) C) C)
      (fun r c v => if r < m ∧ c < m then
        forLoop m (fun k v => w (v + w (getEntry A r k * getEntry B k c))) v else v) := by
  have h := Entrywise.forLoop (n := n) m
    (b := fun i C => forLoop m (fun j C => forLoop m (fun k C =>
      setEntry C i j (w (getEntry C i j + w (getEntry A i k * getEntry B k j)))) C) C)
    (g := fun i r c v => forLoop m (fun j v => forLoop m (fun k v =>
      if r = i ∧ c = j then w (v + w (getEntry A i k * getEntry B k j)) else v) v) v)
    (fun i _ => Entrywise.forLoop m (fun j _ => Entrywise.forLoop m (fun k _ =>
      Entrywise.setEntry n i j (fun v => w (v + w (getEntry A i k * getEntry B k j))))))
  intro C hC
  obtain ⟨h1, h2⟩ := h C hC
  refine ⟨h1, fun r c hr hc => ?_⟩
  rw [h2 r c hr hc]
  exact forLoop_nest3_inner m m m r c
    (fun i k j v => w (v + w (getEntry A i k * getEntry B k j))) _

/-- The loop orders `i, k, j` and `i, j, k` compute the same matrix, whatever the
reduction `w` of the entry type. -/
theorem classicalMultiply_eq_IJK (w : Int → Int) (A B : Matrix) :
    classicalMultiply w A B = classicalMultiplyIJK w A B := by
  have h1 := classicalMultiply_entrywise w A B A.length A.length _
    (isSquare_newMatrix A.length)
  have h2 := classicalMultiplyIJK_entrywise w A B A.length A.length _
    (isSquare_newMatrix A.length)
  exact ext_of_getEntry h1.1 h2.1 fun r c hr hc => by
    have e1 := h1.2 r c hr hc
    have e2 := h2.2 r c hr hc
    exact e1.trans e2.symm

/-! ## Identity and zero matrices -/

theorem hasEntries_identity (n : Nat) :
    HasEntries n (identity n) (fun i j => if i = j then 1 else 0) := by
  refine ⟨⟨by simp [identity], ?_⟩, fun i j hi hj => ?_⟩
  · intro row hrow
    simp only [identity, List.mem_map] at hrow
    obtain ⟨i, _, rfl⟩ := hrow
    simp
  · simp [getEntry, identity, List.getD, hi, hj]

theorem getEntry_zero (n i j : Nat) : getEntry (zero n) i j = 0 :=
  getEntry_newMatrix n i j

theorem hasEntries_zero (n : Nat) : HasEntries n (zero n) (fun _ _ => 0) :=
  ⟨isSquare_newMatrix n, fun i j _ _ => getEntry_zero n i j⟩

theorem eq_zero_of_hasEntries {n : Nat} {X : Matrix} {f : Nat → Nat → Int}
    (h : HasEntries n X f) (h0 : ∀ i j, i < n → j < n → f i j = 0) : X = zero n :=
  HasEntries.ext h (hasEntries_zero n) h0

theorem classicalMultiply_identity_right {n : Nat} {A : Matrix} (hA : IsSquare n A) :
    classicalMultiply id A (identity n) = A := by
  apply HasEntries.ext
    (HasEntries.classicalMultiply (HasEntries.self hA) (hasEntries_identity n))
    (HasEntries.self hA)
  intro i j _ hj
  simp [Finset.sum_ite_eq', hj]

theorem classicalMultiply_identity_left {n : Nat} {A : Matrix} (hA : IsSquare n A) :
    classicalMultiply id (identity n) A = A := by
  apply HasEntries.ext
    (HasEntries.classicalMultiply (hasEntries_identity n) (HasEntries.self hA))
    (HasEntries.self hA)
  intro i j hi _
  simp [Finset.sum_ite_eq, hi]

theorem classicalMultiply_zero_right {n : Nat} {A : Matrix} (hA : IsSquare n A) :
    classicalMultiply id A (zero n) = zero n :=
  eq_zero_of_hasEntries
    (HasEntries.classicalMultiply (HasEntries.self hA) (hasEntries_zero n))
    (fun _ _ _ _ => by simp)

theorem classicalMultiply_zero_left {n : Nat} {A : Matrix} (hA : IsSquare n A) :
    classicalMultiply id (zero n) A = zero n :=
  eq_zero_of_hasEntries
    (HasEntries.classicalMultiply (hasEntries_zero n) (HasEntries.self hA))
    (fun _ _ _ _ => by simp)

/-! ## `strassen` on an all-zero operand -/

theorem length_zero (n : Nat) : (zero n).length = n := by simp [zero]

theorem strassenOperands_zero_right (A : Matrix) (m : Nat) :
    ∀ XY ∈ strassenOperands id A (zero m),
      XY.1.length = A.length / 2 ∧ XY.2 = zero (A.length / 2) := by
  obtain ⟨_, _, _, _, b11, b12, b21, b22⟩ :=
    HasEntries.splitQuadrants (A.length / 2) A (zero m)
  have hsq := strassenOperands_square id A (zero m)
  intro XY hXY
  refine ⟨(hsq XY hXY).1.1, ?_⟩
  simp only [strassenOperands, List.mem_cons, List.mem_singleton, List.not_mem_nil,
    or_false] at hXY
  rcases hXY with h | h | h | h | h | h | h <;> subst h
  · exact eq_zero_of_hasEntries (HasEntries.add id b11 b22) (by simp [getEntry_zero])
  · exact eq_zero_of_hasEntries b11 (by simp [getEntry_zero])
  · exact eq_zero_of_hasEntries (HasEntries.subtract id b12 b22) (by simp [getEntry_zero])
  · exact eq_zero_of_hasEntries (HasEntries.subtract id b21 b11) (by simp [getEntry_zero])
  · exact eq_zero_of_hasEntries b22 (by simp [getEntry_zero])
  · exact eq_zero_of_hasEntries (HasEntries.add id b11 b12) (by simp [getEntry_zero])
  · exact eq_zero_of_hasEntries (HasEntries.add id b21 b22) (by simp [getEntry_zero])

theorem strassenOperands_zero_left (n : Nat) (B : Matrix) :
    ∀ XY ∈ strassenOperands id (zero n) B, XY.1 = zero (n / 2) := by
  have hl := length_zero n
  obtain ⟨a11, a12, a21, a22, _, _, _, _⟩ :=
    HasEntries.splitQuadrants ((zero n).length / 2) (zero n) B
  intro XY hXY
  simp only [strassenOperands, List.mem_cons, List.mem_singleton, List.not_mem_nil,
    or_false] at hXY
  rw [hl] at a11 a12 a21 a22 hXY
  rcases hXY with h | h | h | h | h | h | h <;> subst h
  · exact eq_zero_of_hasEntries (HasEntries.add id a11 a22) (by simp [getEntry_zero])
  · exact eq_zero_of_hasEntries (HasEntries.add id a21 a22) (by simp [getEntry_zero])
  · exact eq_zero_of_hasEntries a11 (by simp [getEntry_zero])
  · exact eq_zero_of_hasEntries a22 (by simp [getEntry_zero])
  · exact eq_zero_of_hasEntries (HasEntries.add id a11 a12) (by simp [getEntry_zero])
  · exact eq_zero_of_hasEntries (HasEntries.subtract id a21 a11) (by simp [getEntry_zero])
  · exact eq_zero_of_hasEntries (HasEntries.subtract id a12 a22) (by simp [getEntry_zero])

theorem strassenCombine_zero (n : Nat) :
    strassenCombine id n (zero (n / 2)) (zero (n / 2)) (zero (n / 2)) (zero (n / 2))
      (zero (n / 2)) (zero (n / 2)) (zero (n / 2)) = zero n := by
  have z := hasEntries_zero (n / 2)
  have c11 : add id (subtract id (add id (zero (n / 2)) (zero (n / 2))) (zero (n / 2)))
      (zero (n / 2)) = zero (n / 2) :=
    eq_zero_of_hasEntries
      (HasEntries.add id (HasEntries.subtract id (HasEntries.add id z z) z) z) (by simp)
  have c12 : add id (zero (n / 2)) (zero (n / 2)) = zero (n / 2) :=
    eq_zero_of_hasEntries (HasEntries.add id z z) (by simp)
  unfold strassenCombine
  rw [c11, c12]
  apply ext_of_getEntry (isSquare_assemble _ _ _ _ _ _) (isSquare_newMatrix n)
  intro r c hr hc
  rw [getEntry_assemble _ _ _ _ _ _ hr hc]
  show _ = getEntry (zero n) r c
  simp only [quadrantEntry, getEntry_zero]
  split_ifs <;> rfl

theorem strassenFuel_zero_right :
    ∀ fuel n, 1 ≤ n → Nat.log 2 n < fuel → ∀ A : Matrix, A.length = n →
      ∃ r, strassenFuel id fuel A (zero n) = some r ∧ r.1 = zero n := by
  intro fuel
  induction fuel with
  | zero => intro n _ h; omega
  | succ f ih =>
    intro n hn hlog A hA
    by_cases h1 : n = 1
    · subst h1
      refine ⟨_, strassenFuel_base id f hA _, ?_⟩
      simp only [getEntry_zero, id, mul_zero]
      rfl
    · have h2 : 2 ≤ n := by omega
      have hlog2 := log_two_half h2
      have hk : 1 ≤ n / 2 := by omega
      have hops := strassenOperands_zero_right A n
      rw [hA] at hops
      obtain ⟨r1, r2, r3, r4, r5, r6, r7, hmap, p1, p2, p3, p4, p5, p6, p7⟩ :=
        map_seven (strassenOperands id A (zero n)) (fun XY => strassenFuel id f XY.1 XY.2)
          (fun r => r.1 = zero (n / 2))
          (strassenOperands_length id A (zero n))
          (fun XY hXY => by
            show ∃ r, strassenFuel id f XY.1 XY.2 = some r ∧ r.1 = zero (n / 2)
            rw [(hops XY hXY).2]
            exact ih (n / 2) hk (by omega) XY.1 (hops XY hXY).1)
      have hA1 : A.length ≠ 1 := by rw [hA]; exact h1
      refine ⟨_, strassenFuel_step id f hA1 _ hmap, ?_⟩
      simp only [p1, p2, p3, p4, p5, p6, p7, hA]
      exact strassenCombine_zero n

theorem strassenFuel_zero_left :
    ∀ fuel n, 1 ≤ n → Nat.log 2 n < fuel → ∀ B : Matrix,
      ∃ r, strassenFuel id fuel (zero n) B = some r ∧ r.1 = zero n := by
  intro fuel
  induction fuel with
  | zero => intro n _ h; omega
  | succ f ih =>
    intro n hn hlog B
    have hl := length_zero n
    by_cases h1 : n = 1
    · subst h1
      refine ⟨_, strassenFuel_base id f hl _, ?_⟩
      simp only [getEntry_zero, id, zero_mul]
      rfl
    · have h2 : 2 ≤ n := by omega
      have hlog2 := log_two_half h2
      have hk : 1 ≤ n / 2 := by omega
      have hops := strassenOperands_zero_left n B
      obtain ⟨r1, r2, r3, r4, r5, r6, r7, hmap, p1, p2, p3, p4, p5, p6, p7⟩ :=
        map_seven (strassenOperands id (zero n) B) (fun XY => strassenFuel id f XY.1 XY.2)
          (fun r => r.1 = zero (n / 2))
          (strassenOperands_length id (zero n) B)
          (fun XY hXY => by
            show ∃ r, strassenFuel id f XY.1 XY.2 = some r ∧ r.1 = zero (n / 2)
            rw [hops XY hXY]
            exact ih (n / 2) hk (by omega) XY.2)
      have hA1 : (zero n).length ≠ 1 := by rw [hl]; exact h1
      refine ⟨_, strassenFuel_step id f hA1 _ hmap, ?_⟩
      simp only [p1, p2, p3, p4, p5, p6, p7, hl]
      exact strassenCombine_zero n

theorem log_two_lt_succ (n : Nat) : Nat.log 2 n < n + 1 :=
  Nat.lt_succ_of_le (Nat.log_le_self 2 n)

/-! ## Counting calls and multiplications -/

theorem CallTree.depth_full (p : Nat) : (CallTree.full p).depth = p := by
  induction p with
  | zero => rfl
  | succ p ih => simp only [CallTree.full, CallTree.depth, ih, max_self]; omega

theorem CallTree.muls_full (p : Nat) : (CallTree.full p).muls = 7 ^ p := by
  induction p with
  | zero => rfl
  | succ p ih => simp only [CallTree.full, CallTree.muls, ih, pow_succ]; omega

/-- On operands with `2 ^ p` rows and with more than `p` fuel, the calls of `strassen` form
the complete tree of depth `p`, whatever the reduction `w` of the entry type. -/
theorem strassenFuel_tree (w : Int → Int) :
    ∀ p fuel, p < fuel → ∀ A B : Matrix, A.length = 2 ^ p →
      ∃ r, strassenFuel w fuel A B = some r ∧ r.2 = CallTree.full p := by
  intro p
  induction p with
  | zero =>
    intro fuel hf A B hA
    obtain ⟨f, rfl⟩ : ∃ f, fuel = f + 1 := ⟨fuel - 1, by omega⟩
    exact ⟨_, strassenFuel_base w f hA B, rfl⟩
  | succ p ih =>
    intro fuel hf A B hA
    obtain ⟨f, rfl⟩ : ∃ f, fuel = f + 1 := ⟨fuel - 1, by omega⟩
    have hpow : (2 : Nat) ^ (p + 1) = 2 * 2 ^ p := by rw [pow_succ, Nat.mul_comm]
    have hpos : 0 < 2 ^ p := Nat.two_pow_pos p
    have hhalf : A.length / 2 = 2 ^ p := by omega
    have hA1 : A.length ≠ 1 := by omega
    have hsq := strassenOperands_square w A B
    rw [hhalf] at hsq
    obtain ⟨r1, r2, r3, r4, r5, r6, r7, hmap, p1, p2, p3, p4, p5, p6, p7⟩ :=
      map_seven (strassenOperands w A B) (fun XY => strassenFuel w f XY.1 XY.2)
        (fun r => r.2 = CallTree.full p)
        (strassenOperands_length w A B)
        (fun XY hXY => ih f (by omega) XY.1 XY.2 (hsq XY hXY).1.1)
    refine ⟨_, strassenFuel_step w f hA1 B hmap, ?_⟩
    simp only [p1, p2, p3, p4, p5, p6, p7, hA, CallTree.full]

theorem forLoop_counter {σ : Type} (n c : Nat) (body : Nat → σ × Nat → σ × Nat)
    (h : ∀ i s, (body i s).2 = s.2 + c) (s : σ × Nat) :
    (forLoop n body s).2 = s.2 + n * c := by
  induction n with
  | zero => simp [forLoop]
  | succ n ih => rw [forLoop_succ, h, ih, Nat.succ_mul, Nat.add_assoc]

theorem classicalMultiplyCount_fst (w : Int → Int) (A B : Matrix) :
    (classicalMultiplyCount w A B).1 = classicalMultiply w A B :=
  forLoop_proj Prod.fst _ _ _ (fun _ s _ =>
    forLoop_proj Prod.fst _ _ _ (fun _ s _ =>
      forLoop_proj Prod.fst _ _ _ (fun _ _ _ => rfl) s) s) _

theorem classicalMultiplyCount_snd (w : Int → Int) (A B : Matrix) :
    (classicalMultiplyCount w A B).2 = A.length ^ 3 := by
  unfold classicalMultiplyCount
  rw [forLoop_counter A.length (A.length * (A.length * 1)) _ (fun i s =>
    forLoop_counter A.length (A.length * 1) _ (fun k s =>
      forLoop_counter A.length 1 _ (fun j s => rfl) s) s)]
  ring

/-! ## Random matrix -/

theorem generateMatrix_row (F : Nat → Int) (i m : Nat) (s : Matrix × Nat) :
    forLoop m (fun j s => (setEntry s.1 i j (F s.2), s.2 + 1)) s =
      (forLoop m (fun j C => setEntry C i j (F (s.2 + j))) s.1, s.2 + m) := by
  induction m with
  | zero => rfl
  | succ m ih => rw [forLoop_succ, ih]; rfl

theorem generateMatrix_rows (F : Nat → Int) (n m : Nat) (C : Matrix) :
    forLoop m (fun i s => forLoop n (fun j s => (setEntry s.1 i j (F s.2), s.2 + 1)) s)
        (C, 0) =
      (forLoop m (fun i C => forLoop n (fun j C => setEntry C i j (F (i * n + j))) C) C,
        m * n) := by
  induction m with
  | zero => simp [forLoop]
  | succ m ih =>
    rw [forLoop_succ, ih, generateMatrix_row, forLoop_succ, Nat.succ_mul]

theorem generateMatrix_eq (rand : Nat → Int) (n : Nat) :
    generateMatrix rand n =
      (fill n (fun i j => Int.tmod (rand (i * n + j)) 10), n * n) :=
  generateMatrix_rows (fun t => Int.tmod (rand t) 10) n n (newMatrix n)

/-! ## Report of variant 2 -/

theorem wrap_eq {x : Int} (h1 : -2 ^ 31 ≤ x) (h2 : x < 2 ^ 31) : wrap 32 x = x := by
  unfold wrap
  norm_num at h1 h2 ⊢
  rw [Int.emod_eq_of_lt (by omega) (by omega)]
  omega

/-- A loop that updates the element `q` of a list in iteration `q`. -/
theorem forLoop_set (F : Nat → Int → Int) (m : Nat) (L : List Int) :
    (forLoop m (fun q L => L.set q (F q (L.getD q 0))) L).length = L.length ∧
    ∀ x, x < L.length →
      (forLoop m (fun q L => L.set q (F q (L.getD q 0))) L).getD x 0 =
        if x < m then F x (L.getD x 0) else L.getD x 0 := by
  induction m with
  | zero => exact ⟨rfl, fun x _ => by simp [forLoop]⟩
  | succ m ih =>
    obtain ⟨hl, hg⟩ := ih
    rw [forLoop_succ]
    generalize forLoop m (fun q L => L.set q (F q (L.getD q 0))) L = L2 at hl hg ⊢
    refine ⟨by rw [List.length_set, hl], fun x hx => ?_⟩
    have h1 := hg x hx
    have hx2 : x < L2.length := by rw [hl]; exact hx
    by_cases hxm : x = m
    · subst hxm
      simp only [lt_irrefl, if_false] at h1
      have : x < x + 1 := Nat.lt_succ_self x
      rw [h1]
      simp [List.getD, List.getElem?_set, hx2]
    · have hmx : ¬ m = x := fun e => hxm e.symm
      have e : (L2.set m (F m (L2.getD m 0))).getD x 0 = L2.getD x 0 := by
        simp [List.getD, List.getElem?_set, hmx]
      rw [e, h1]
      by_cases hlt : x < m
      · have : x < m + 1 := by omega
        simp [hlt, this]
      · have : ¬ x < m + 1 := by omega
        simp [hlt, this]

theorem accumulateResults_spec (trials powers : Nat) (time : Nat → Nat → Int)
    (hpos : ∀ i, i < trials → ∀ q, q < powers → 0 ≤ time i (q + 1))
    (hfit : ∀ q, q < powers → ∑ i in Finset.range trials, time i (q + 1) < 2 ^ 31) :
    ∀ m, m ≤ trials →
      (forLoop m (fun i results => forLoop powers (fun q results =>
          results.set (q + 1 - 1) (wrap 32 (results.getD (q + 1 - 1) 0 + time i (q + 1))))
          results) (List.replicate powers 0)).length = powers ∧
      ∀ q, q < powers →
        (forLoop m (fun i results => forLoop powers (fun q results =>
          results.set (q + 1 - 1) (wrap 32 (results.getD (q + 1 - 1) 0 + time i (q + 1))))
          results) (List.replicate powers 0)).getD q 0 =
        ∑ i in Finset.range m, time i (q + 1) := by
  intro m
  induction m with
  | zero =>
    intro _
    refine ⟨by simp [forLoop], fun q hq => ?_⟩
    simp [forLoop, List.getD, List.getElem?_replicate, hq]
  | succ m ih =>
    intro hm
    obtain ⟨hl, hg⟩ := ih (by omega)
    rw [forLoop_succ]
    simp only [Nat.add_sub_cancel] at hl hg ⊢
    obtain ⟨h1, h2⟩ := forLoop_set (fun q v => wrap 32 (v + time m (q + 1))) powers
      (forLoop m (fun i results => forLoop powers (fun q results =>
          results.set q (wrap 32 (results.getD q 0 + time i (q + 1))))
          results) (List.replicate powers 0))
    refine ⟨by rw [h1, hl], fun q hq => ?_⟩
    rw [h2 q (by rw [hl]; exact hq), hg q hq]
    simp only [hq, if_true]
    rw [← Finset.sum_range_succ]
    have hnn : 0 ≤ ∑ i in Finset.range (m + 1), time i (q + 1) :=
      Finset.sum_nonneg fun i hi => hpos i (by have := Finset.mem_range.mp hi; omega) q hq
    have hle : ∑ i in Finset.range (m + 1), time i (q + 1) ≤
        ∑ i in Finset.range trials, time i (q + 1) :=
      Finset.sum_le_sum_of_subset_of_nonneg
        (fun i hi => Finset.mem_range.mpr (by have := Finset.mem_range.mp hi; omega))
        (fun i hi _ => hpos i (Finset.mem_range.mp hi) q hq)
    have := hfit q hq
    exact wrap_eq (by omega) (by omega)

theorem string_join_snoc (l : List String) (x : String) :
    String.join (l ++ [x]) = String.join l ++ x := by
  simp [String.join, List.foldl_append]

/-- A loop that appends one comma-separated field per iteration. -/
theorem forLoop_append (f : Nat → String) (m : Nat) (s : String) :
    forLoop m (fun i out => out ++ "," ++ f i) s =
      s ++ String.join ((List.range m).map fun i => "," ++ f i) := by
  induction m with
  | zero => simp [forLoop, String.join]
  | succ m ih =>
    rw [forLoop_succ, ih, List.range_succ, List.map_append, List.map_singleton,
      string_join_snoc]
    simp only [String.append_assoc]

/-! ## Shape of a recursive result, empty operands, and the quadrant round trip -/

/-- On operands with `n >= 2` rows and with more fuel than `log2 n`, the result of
`strassen` is a recombination of seven matrices. -/
theorem strassenFuel_node (w : Int → Int) (fuel n : Nat) (hn : 2 ≤ n)
    (hlog : Nat.log 2 n < fuel) (A B : Matrix) (hA : A.length = n) :
    ∃ M1 M2 M3 M4 M5 M6 M7 t,
      strassenFuel w fuel A B = some (strassenCombine w n M1 M2 M3 M4 M5 M6 M7, t) := by
  obtain ⟨f, rfl⟩ : ∃ f, fuel = f + 1 := ⟨fuel - 1, by omega⟩
  have hlog2 := log_two_half hn
  have hsq := strassenOperands_square w A B
  rw [hA] at hsq
  obtain ⟨r1, r2, r3, r4, r5, r6, r7, hmap, _⟩ :=
    map_seven (strassenOperands w A B) (fun XY => strassenFuel w f XY.1 XY.2)
      (fun _ => True) (strassenOperands_length w A B)
      (fun XY hXY => by
        obtain ⟨r, hr, _⟩ := strassenFuel_total w f (n / 2) (by omega) (by omega)
          XY.1 XY.2 (hsq XY hXY).1.1
        exact ⟨r, hr, trivial⟩)
  have hA1 : A.length ≠ 1 := by omega
  have := strassenFuel_step w f hA1 B hmap
  rw [hA] at this
  exact ⟨_, _, _, _, _, _, _, _, this⟩

theorem strassenFuel_nil (w : Int → Int) :
    ∀ fuel (B : Matrix), strassenFuel w fuel [] B = none := by
  intro fuel
  induction fuel with
  | zero => intro B; rfl
  | succ f ih =>
    intro B
    have h : strassenFuel w f
        (add w (splitQuadrants (([] : Matrix).length / 2) [] B).A11
          (splitQuadrants (([] : Matrix).length / 2) [] B).A22)
        (add w (splitQuadrants (([] : Matrix).length / 2) [] B).B11
          (splitQuadrants (([] : Matrix).length / 2) [] B).B22) = none := ih _
    simp only [strassenFuel, strassenOperands, List.map, h]
    rfl

theorem assemble_splitQuadrants_left {k : Nat} {A : Matrix} (hA : IsSquare (2 * k) A)
    (B : Matrix) :
    assemble (2 * k) k (splitQuadrants k A B).A11 (splitQuadrants k A B).A12
      (splitQuadrants k A B).A21 (splitQuadrants k A B).A22 = A := by
  obtain ⟨a11, a12, a21, a22, _, _, _, _⟩ := HasEntries.splitQuadrants k A B
  apply HasEntries.ext (HasEntries.assemble a11 a12 a21 a22) (HasEntries.self hA)
  intro r c _ _
  by_cases h1 : r < k <;> by_cases h2 : c < k <;> simp only [h1, h2, if_true, if_false]
  · have e2 : c - k + k = c := by omega
    rw [e2]
  · have e1 : r - k + k = r := by omega
    rw [e1]
  · have e1 : r - k + k = r := by omega
    have e2 : c - k + k = c := by omega
    rw [e1, e2]

theorem assemble_splitQuadrants_right {k : Nat} (A : Matrix) {B : Matrix}
    (hB : IsSquare (2 * k) B) :
    assemble (2 * k) k (splitQuadrants k A B).B11 (splitQuadrants k A B).B12
      (splitQuadrants k A B).B21 (splitQuadrants k A B).B22 = B := by
  obtain ⟨_, _, _, _, b11, b12, b21, b22⟩ := HasEntries.splitQuadrants k A B
  apply HasEntries.ext (HasEntries.assemble b11 b12 b21 b22) (HasEntries.self hB)
  intro r c _ _
  by_cases h1 : r < k <;> by_cases h2 : c < k <;> simp only [h1, h2, if_true, if_false]
  · have e2 : c - k + k = c := by omega
    rw [e2]
  · have e1 : r - k + k = r := by omega
    rw [e1]
  · have e1 : r - k + k = r := by omega
    have e2 : c - k + k = c := by omega
    rw [e1, e2]

/-- The four `k x k` blocks of a reassembled matrix, read at the offsets of the split. -/
theorem getEntry_assemble_blocks {k : Nat} {C11 C12 C21 C22 : Matrix}
    (h11 : IsSquare k C11) (h12 : IsSquare k C12) (h21 : IsSquare k C21)
    (h22 : IsSquare k C22) {i j : Nat} (hi : i < k) (hj : j < k) :
    getEntry (assemble (2 * k) k C11 C12 C21 C22) i j = getEntry C11 i j ∧
    getEntry (assemble (2 * k) k C11 C12 C21 C22) i (j + k) = getEntry C12 i j ∧
    getEntry (assemble (2 * k) k C11 C12 C21 C22) (i + k) j = getEntry C21 i j ∧
    getEntry (assemble (2 * k) k C11 C12 C21 C22) (i + k) (j + k) = getEntry C22 i j := by
  have h := HasEntries.assemble (HasEntries.self h11) (HasEntries.self h12)
    (HasEntries.self h21) (HasEntries.self h22)
  have n1 : ¬ i + k < k := by omega
  have n2 : ¬ j + k < k := by omega
  refine ⟨?_, ?_, ?_, ?_⟩
  · rw [h.2 i j (by omega) (by omega)]; simp only [hi, hj, if_true]
  · rw [h.2 i (j + k) (by omega) (by omega)]
    simp only [hi, n2, if_true, if_false, Nat.add_sub_cancel]
  · rw [h.2 (i + k) j (by omega) (by omega)]
    simp only [hj, n1, if_true, if_false, Nat.add_sub_cancel]
  · rw [h.2 (i + k) (j + k) (by omega) (by omega)]
    simp only [n1, n2, if_false, Nat.add_sub_cancel]

theorem splitQuadrants_assemble_left {k : Nat} {C11 C12 C21 C22 : Matrix}
    (h11 : IsSquare k C11) (h12 : IsSquare k C12) (h21 : IsSquare k C21)
    (h22 : IsSquare k C22) (B : Matrix) :
    (splitQuadrants k (assemble (2 * k) k C11 C12 C21 C22) B).A11 = C11 ∧
    (splitQuadrants k (assemble (2 * k) k C11 C12 C21 C22) B).A12 = C12 ∧
    (splitQuadrants k (assemble (2 * k) k C11 C12 C21 C22) B).A21 = C21 ∧
    (splitQuadrants k (assemble (2 * k) k C11 C12 C21 C22) B).A22 = C22 := by
  obtain ⟨a11, a12, a21, a22, _, _, _, _⟩ :=
    HasEntries.splitQuadrants k (assemble (2 * k) k C11 C12 C21 C22) B
  exact ⟨HasEntries.ext a11 (HasEntries.self h11)
      (fun i j hi hj => (getEntry_assemble_blocks h11 h12 h21 h22 hi hj).1),
    HasEntries.ext a12 (HasEntries.self h12)
      (fun i j hi hj => (getEntry_assemble_blocks h11 h12 h21 h22 hi hj).2.1),
    HasEntries.ext a21 (HasEntries.self h21)
      (fun i j hi hj => (getEntry_assemble_blocks h11 h12 h21 h22 hi hj).2.2.1),
    HasEntries.ext a22 (HasEntries.self h22)
      (fun i j hi hj => (getEntry_assemble_blocks h11 h12 h21 h22 hi hj).2.2.2)⟩

theorem splitQuadrants_assemble_right {k : Nat} {C11 C12 C21 C22 : Matrix}
    (h11 : IsSquare k C11) (h12 : IsSquare k C12) (h21 : IsSquare k C21)
    (h22 : IsSquare k C22) (A : Matrix) :
    (splitQuadrants k A (assemble (2 * k) k C11 C12 C21 C22)).B11 = C11 ∧
    (splitQuadrants k A (assemble (2 * k) k C11 C12 C21 C22)).B12 = C12 ∧
    (splitQuadrants k A (assemble (2 * k) k C11 C12 C21 C22)).B21 = C21 ∧
    (splitQuadrants k A (assemble (2 * k) k C11 C12 C21 C22)).B22 = C22 := by
  obtain ⟨_, _, _, _, b11, b12, b21, b22⟩ :=
    HasEntries.splitQuadrants k A (assemble (2 * k) k C11 C12 C21 C22)
  exact ⟨HasEntries.ext b11 (HasEntries.self h11)
      (fun i j hi hj => (getEntry_assemble_blocks h11 h12 h21 h22 hi hj).1),
    HasEntries.ext b12 (HasEntries.self h12)
      (fun i j hi hj => (getEntry_assemble_blocks h11 h12 h21 h22 hi hj).2.1),
    HasEntries.ext b21 (HasEntries.self h21)
      (fun i j hi hj => (getEntry_assemble_blocks h11 h12 h21 h22 hi hj).2.2.1),
    HasEntries.ext b22 (HasEntries.self h22)
      (fun i j hi hj => (getEntry_assemble_blocks h11 h12 h21 h22 hi hj).2.2.2)⟩

/-! ## Intermediate states of `classicalMultiply` -/

theorem forLoop_nest2_inner {σ : Type} (n2 n3 i r c : Nat) (F : Nat → Nat → σ → σ) (s : σ) :
    forLoop n2 (fun k s => forLoop n3 (fun j s => if r = i ∧ c = j then F k j s else s) s) s =
      if r = i ∧ c < n3 then forLoop n2 (fun k s => F k c s) s else s := by
  by_cases hri : r = i
  · simp only [hri, true_and]
    by_cases hc : c < n3
    · simp only [forLoop_single, hc, if_true]
    · simp only [forLoop_single, hc, if_false, forLoop_skip]
  · simp only [hri, false_and, if_false, forLoop_skip]

theorem forLoop_nest1 {σ : Type} (n3 i r c : Nat) (F : Nat → σ → σ) (s : σ) :
    forLoop n3 (fun j s => if r = i ∧ c = j then F j s else s) s =
      if r = i ∧ c < n3 then F c s else s := by
  by_cases hri : r = i
  · simp only [hri, true_and, forLoop_single]
  · simp only [hri, false_and, if_false, forLoop_skip]

theorem classicalLoops_entrywise (w : Int → Int) (A B : Matrix) (n m1 m2 m3 : Nat) :
    Entrywise n
      (fun C => forLoop m1 (fun i C => forLoop m2 (fun k C => forLoop m3 (fun j C =>
        setEntry C i j (w (getEntry C i j + w (getEntry A i k * getEntry B k j)))) C) C) C)
      (fun r c v => if r < m1 ∧ c < m3 then
        forLoop m2 (fun k v => w (v + w (getEntry A r k * getEntry B k c))) v else v) := by
  have h := Entrywise.forLoop (n := n) m1
    (b := fun i C => forLoop m2 (fun k C => forLoop m3 (fun j C =>
      setEntry C i j (w (getEntry C i j + w (getEntry A i k * getEntry B k j)))) C) C)
    (g := fun i r c v => forLoop m2 (fun k v => forLoop m3 (fun j v =>
      if r = i ∧ c = j then w (v + w (getEntry A i k * getEntry B k j)) else v) v) v)
    (fun i _ => Entrywise.forLoop m2 (fun k _ => Entrywise.forLoop m3 (fun j _ =>
      Entrywise.setEntry n i j (fun v => w (v + w (getEntry A i k * getEntry B k j))))))
  intro C hC
  obtain ⟨h1, h2⟩ := h C hC
  refine ⟨h1, fun r c hr hc => ?_⟩
  rw [h2 r c hr hc]
  exact forLoop_nest3 m1 m2 m3 r c
    (fun i k j v => w (v + w (getEntry A i k * getEntry B k j))) _

theorem classicalRow_entrywise (w : Int → Int) (A B : Matrix) (n i0 m2 m3 : Nat) :
    Entrywise n
      (fun C => forLoop m2 (fun k C => forLoop m3 (fun j C =>
        setEntry C i0 j (w (getEntry C i0 j + w (getEntry A i0 k * getEntry B k j)))) C) C)
      (fun r c v => if r = i0 ∧ c < m3 then
        forLoop m2 (fun k v => w (v + w (getEntry A i0 k * getEntry B k c))) v else v) := by
  have h := Entrywise.forLoop (n := n) m2
    (b := fun k C => forLoop m3 (fun j C =>
      setEntry C i0 j (w (getEntry C i0 j + w (getEntry A i0 k * getEntry B k j)))) C)
    (g := fun k r c v => forLoop m3 (fun j v =>
      if r = i0 ∧ c = j then w (v + w (getEntry A i0 k * getEntry B k j)) else v) v)
    (fun k _ => Entrywise.forLoop m3 (fun j _ =>
      Entrywise.setEntry n i0 j (fun v => w (v + w (getEntry A i0 k * getEntry B k j)))))
  intro C hC
  obtain ⟨h1, h2⟩ := h C hC
  refine ⟨h1, fun r c hr hc => ?_⟩
  rw [h2 r c hr hc]
  exact forLoop_nest2_inner m2 m3 i0 r c
    (fun k j v => w (v + w (getEntry A i0 k * getEntry B k j))) _

theorem classicalCell_entrywise (w : Int → Int) (A B : Matrix) (n i0 k0 m3 : Nat) :
    Entrywise n
      (fun C => forLoop m3 (fun j C =>
        setEntry C i0 j (w (getEntry C i0 j + w (getEntry A i0 k0 * getEntry B k0 j)))) C)
      (fun r c v => if r = i0 ∧ c < m3 then
        w (v + w (getEntry A i0 k0 * getEntry B k0 c)) else v) := by
  have h := Entrywise.forLoop (n := n) m3
    (b := fun j C =>
      setEntry C i0 j (w (getEntry C i0 j + w (getEntry A i0 k0 * getEntry B k0 j))))
    (g := fun j r c v =>
      if r = i0 ∧ c = j then w (v + w (getEntry A i0 k0 * getEntry B k0 j)) else v)
    (fun j _ =>
      Entrywise.setEntry n i0 j (fun v => w (v + w (getEntry A i0 k0 * getEntry B k0 j))))
  intro C hC
  obtain ⟨h1, h2⟩ := h C hC
  refine ⟨h1, fun r c hr hc => ?_⟩
  rw [h2 r c hr hc]
  exact forLoop_nest1 m3 i0 r c
    (fun j v => w (v + w (getEntry A i0 k0 * getEntry B k0 j))) _

/-- In the state `(i0, k0, j0)` the entry `(r, c)` holds the accumulation of the first
`accumulated n i0 k0 j0 r c` products. -/
theorem classicalMultiplyState_entries (w : Int → Int) {n : Nat} {A : Matrix}
    (hA : A.length = n) (B : Matrix) (i0 k0 j0 : Nat) :
    HasEntries n (classicalMultiplyState w A B i0 k0 j0) (fun r c =>
      forLoop (accumulated n i0 k0 j0 r c)
        (fun k v => w (v + w (getEntry A r k * getEntry B k c))) 0) := by
  obtain ⟨s1, e1⟩ := classicalLoops_entrywise w A B n i0 n n _ (isSquare_newMatrix n)
  obtain ⟨s2, e2⟩ := classicalRow_entrywise w A B n i0 k0 n _ s1
  obtain ⟨s3, e3⟩ := classicalCell_entrywise w A B n i0 k0 j0 _ s2
  unfold classicalMultiplyState
  rw [hA]
  refine ⟨s3, fun r c hr hc => ?_⟩
  rw [e3 r c hr hc, e2 r c hr hc, e1 r c hr hc, getEntry_newMatrix]
  unfold accumulated
  by_cases h1 : r < i0
  · have h2 : ¬ r = i0 := by omega
    simp only [h1, h2, hc, and_self, false_and, if_true, if_false]
  · by_cases h2 : r = i0
    · subst h2
      by_cases h3 : c < j0
      · simp only [h1, h3, hc, and_self, false_and, true_and, if_true, if_false, forLoop_succ]
      · simp only [h1, h3, hc, and_self, false_and, true_and, and_false, if_true, if_false]
    · simp only [h1, h2, false_and, if_false]
      rfl

theorem classicalMultiplyState_start (w : Int → Int) (A B : Matrix) :
    classicalMultiplyState w A B 0 0 0 = newMatrix A.length := rfl

theorem classicalMultiplyState_step (w : Int → Int) (A B : Matrix) (i0 k0 j0 : Nat) :
    classicalMultiplyState w A B i0 k0 (j0 + 1) =
      setEntry (classicalMultiplyState w A B i0 k0 j0) i0 j0
        (w (getEntry (classicalMultiplyState w A B i0 k0 j0) i0 j0 +
          w (getEntry A i0 k0 * getEntry B k0 j0))) := rfl

theorem classicalMultiplyState_next_k (w : Int → Int) (A B : Matrix) (i0 k0 : Nat) :
    classicalMultiplyState w A B i0 k0 A.length = classicalMultiplyState w A B i0 (k0 + 1) 0 :=
  rfl

theorem classicalMultiplyState_next_i (w : Int → Int) (A B : Matrix) (i0 : Nat) :
    classicalMultiplyState w A B i0 A.length 0 = classicalMultiplyState w A B (i0 + 1) 0 0 :=
  rfl

theorem classicalMultiplyState_final (w : Int → Int) (A B : Matrix) :
    classicalMultiplyState w A B A.length 0 0 = classicalMultiply w A B := rfl

theorem digit_product_bounds {a b : Int} (ha : 0 ≤ a ∧ a ≤ 9) (hb : 0 ≤ b ∧ b ≤ 9) :
    0 ≤ a * b ∧ a * b ≤ 81 := by
  constructor
  · exact mul_nonneg ha.1 hb.1
  · have := mul_le_mul ha.2 hb.2 hb.1 (by norm_num : (0 : Int) ≤ 9)
    omega

/-- An accumulation of at most `n` products of digits under a reduction that is exact up
to `81 * n` is the exact sum, and lies between `0` and `81` times the number of products. -/
theorem accumulate_exact (w : Int → Int) (n : Nat)
    (hw : ∀ x : Int, 0 ≤ x → x ≤ 81 * n → w x = x) (a b : Nat → Int)
    (ha : ∀ k, k < n → 0 ≤ a k ∧ a k ≤ 9) (hb : ∀ k, k < n → 0 ≤ b k ∧ b k ≤ 9) :
    ∀ m, m ≤ n →
      forLoop m (fun k v => w (v + w (a k * b k))) 0 = ∑ k in Finset.range m, a k * b k ∧
      0 ≤ ∑ k in Finset.range m, a k * b k ∧
      ∑ k in Finset.range m, a k * b k ≤ 81 * m := by
  intro m
  induction m with
  | zero => intro _; simp [forLoop]
  | succ m ih =>
    intro hm
    obtain ⟨e, lo, hi⟩ := ih (by omega)
    obtain ⟨plo, phi⟩ := digit_product_bounds (ha m (by omega)) (hb m (by omega))
    have hmn : ((m : Int) + 1) ≤ n := by exact_mod_cast hm
    rw [forLoop_succ, e, Finset.sum_range_succ]
    rw [hw (a m * b m) plo (by omega)]
    rw [hw _ (by omega) (by omega)]
    exact ⟨rfl, by omega, by push_cast; omega⟩

theorem wrap_eq_64 {x : Int} (h1 : -2 ^ 63 ≤ x) (h2 : x < 2 ^ 63) : wrap 64 x = x := by
  unfold wrap
  norm_num at h1 h2 ⊢
  rw [Int.emod_eq_of_lt (by omega) (by omega)]
  omega

theorem wrap_32_exact {n : Nat} (hn : n ≤ 4096) :
    ∀ x : Int, 0 ≤ x → x ≤ 81 * n → wrap 32 x = x := by
  intro x h0 h1
  have : (n : Int) ≤ 4096 := by exact_mod_cast hn
  exact wrap_eq (by omega) (by norm_num; omega)

theorem wrap_64_exact {n : Nat} (hn : n ≤ 4096) :
    ∀ x : Int, 0 ≤ x → x ≤ 81 * n → wrap 64 x = x := by
  intro x h0 h1
  have : (n : Int) ≤ 4096 := by exact_mod_cast hn
  exact wrap_eq_64 (by omega) (by norm_num; omega)

/-- Under a reduction that is exact up to `81 * n`, every state of `classicalMultiply` on
`n x n` matrices of digits holds exact partial sums between `0` and `81 * n`. -/
theorem classicalMultiplyState_exact (w : Int → Int) {n : Nat} {A B : Matrix}
    (hw : ∀ x : Int, 0 ≤ x → x ≤ 81 * n → w x = x)
    (hA : IsSquare n A) (hdA : IsDigits n A) (hdB : IsDigits n B)
    {i0 k0 j0 : Nat} (hk : k0 < n) :
    HasEntries n (classicalMultiplyState w A B i0 k0 j0) (fun r c =>
      ∑ k in Finset.range (accumulated n i0 k0 j0 r c), getEntry A r k * getEntry B k c) ∧
    ∀ r c, r < n → c < n →
      0 ≤ getEntry (classicalMultiplyState w A B i0 k0 j0) r c ∧
      getEntry (classicalMultiplyState w A B i0 k0 j0) r c ≤ 81 * n := by
  have h := classicalMultiplyState_entries w hA.1 B i0 k0 j0
  have hacc : ∀ r c, accumulated n i0 k0 j0 r c ≤ n := by
    intro r c
    unfold accumulated
    split_ifs <;> omega
  have key : ∀ r c, r < n → c < n →
      getEntry (classicalMultiplyState w A B i0 k0 j0) r c =
        ∑ k in Finset.range (accumulated n i0 k0 j0 r c), getEntry A r k * getEntry B k c ∧
      0 ≤ ∑ k in Finset.range (accumulated n i0 k0 j0 r c), getEntry A r k * getEntry B k c ∧
      ∑ k in Finset.range (accumulated n i0 k0 j0 r c), getEntry A r k * getEntry B k c ≤
        81 * n := by
    intro r c hr hc
    obtain ⟨e, lo, hi⟩ := accumulate_exact w n hw (fun k => getEntry A r k)
      (fun k => getEntry B k c) (fun k hk => hdA r hr k hk) (fun k hk => hdB k hk c hc)
      (accumulated n i0 k0 j0 r c) (hacc r c)
    have hle : ((accumulated n i0 k0 j0 r c : Nat) : Int) ≤ n := by exact_mod_cast hacc r c
    rw [h.2 r c hr hc]
    exact ⟨e, lo, by omega⟩
  refine ⟨⟨h.1, fun r c hr hc => (key r c hr hc).1⟩, fun r c hr hc => ?_⟩
  obtain ⟨e, lo, hi⟩ := key r c hr hc
  rw [e]
  exact ⟨lo, hi⟩

/-! ## Wrap-around arithmetic -/

theorem wrap_modEq (bits : Nat) (x : Int) : wrap bits x ≡ x [ZMOD 2 ^ bits] := by
  unfold wrap
  have h := (Int.mod_modEq (x + 2 ^ (bits - 1)) (2 ^ bits)).sub_right (2 ^ (bits - 1))
  simpa using h

theorem wrap_congr {bits : Nat} {x y : Int} (h : x ≡ y [ZMOD 2 ^ bits]) :
    wrap bits x = wrap bits y := by
  unfold wrap
  have h2 : (x + 2 ^ (bits - 1)) % 2 ^ bits = (y + 2 ^ (bits - 1)) % 2 ^ bits :=
    h.add_right _
  rw [h2]

theorem Congruent.refl {bits k : Nat} {X : Matrix} (h : IsSquare k X) :
    Congruent bits k X X :=
  ⟨h, h, fun _ _ _ _ => Int.ModEq.refl _⟩

theorem Congruent.of_hasEntries {bits k : Nat} {X Y : Matrix} {f g : Nat → Nat → Int}
    (hX : HasEntries k X f) (hY : HasEntries k Y g)
    (h : ∀ i j, i < k → j < k → f i j ≡ g i j [ZMOD 2 ^ bits]) : Congruent bits k X Y :=
  ⟨hX.1, hY.1, fun i j hi hj => by rw [hX.2 i j hi hj, hY.2 i j hi hj]; exact h i j hi hj⟩

theorem congruent_add {bits k : Nat} {X Y X2 Y2 : Matrix}
    (hX : Congruent bits k X X2) (hY : Congruent bits k Y Y2) :
    Congruent bits k (add (wrap bits) X Y) (add id X2 Y2) :=
  Congruent.of_hasEntries
    (HasEntries.add (wrap bits) (HasEntries.self hX.1) (HasEntries.self hY.1))
    (HasEntries.add id (HasEntries.self hX.2.1) (HasEntries.self hY.2.1))
    (fun i j hi hj => (wrap_modEq _ _).trans ((hX.2.2 i j hi hj).add (hY.2.2 i j hi hj)))

theorem congruent_subtract {bits k : Nat} {X Y X2 Y2 : Matrix}
    (hX : Congruent bits k X X2) (hY : Congruent bits k Y Y2) :
    Congruent bits k (subtract (wrap bits) X Y) (subtract id X2 Y2) :=
  Congruent.of_hasEntries
    (HasEntries.subtract (wrap bits) (HasEntries.self hX.1) (HasEntries.self hY.1))
    (HasEntries.subtract id (HasEntries.self hX.2.1) (HasEntries.self hY.2.1))
    (fun i j hi hj => (wrap_modEq _ _).trans ((hX.2.2 i j hi hj).sub (hY.2.2 i j hi hj)))

/-- The quadrants of congruent operands are congruent. -/
theorem congruent_splitQuadrants {bits k : Nat} {A B A2 B2 : Matrix}
    (hA : Congruent bits (2 * k) A A2) (hB : Congruent bits (2 * k) B B2) :
    Congruent bits k (splitQuadrants k A B).A11 (splitQuadrants k A2 B2).A11 ∧
    Congruent bits k (splitQuadrants k A B).A12 (splitQuadrants k A2 B2).A12 ∧
    Congruent bits k (splitQuadrants k A B).A21 (splitQuadrants k A2 B2).A21 ∧
    Congruent bits k (splitQuadrants k A B).A22 (splitQuadrants k A2 B2).A22 ∧
    Congruent bits k (splitQuadrants k A B).B11 (splitQuadrants k A2 B2).B11 ∧
    Congruent bits k (splitQuadrants k A B).B12 (splitQuadrants k A2 B2).B12 ∧
    Congruent bits k (splitQuadrants k A B).B21 (splitQuadrants k A2 B2).B21 ∧
    Congruent bits k (splitQuadrants k A B).B22 (splitQuadrants k A2 B2).B22 := by
  obtain ⟨a11, a12, a21, a22, b11, b12, b21, b22⟩ := HasEntries.splitQuadrants k A B
  obtain ⟨c11, c12, c21, c22, d11, d12, d21, d22⟩ := HasEntries.splitQuadrants k A2 B2
  exact ⟨Congruent.of_hasEntries a11 c11 (fun i j _ _ => hA.2.2 _ _ (by omega) (by omega)),
    Congruent.of_hasEntries a12 c12 (fun i j _ _ => hA.2.2 _ _ (by omega) (by omega)),
    Congruent.of_hasEntries a21 c21 (fun i j _ _ => hA.2.2 _ _ (by omega) (by omega)),
    Congruent.of_hasEntries a22 c22 (fun i j _ _ => hA.2.2 _ _ (by omega) (by omega)),
    Congruent.of_hasEntries b11 d11 (fun i j _ _ => hB.2.2 _ _ (by omega) (by omega)),
    Congruent.of_hasEntries b12 d12 (fun i j _ _ => hB.2.2 _ _ (by omega) (by omega)),
    Congruent.of_hasEntries b21 d21 (fun i j _ _ => hB.2.2 _ _ (by omega) (by omega)),
    Congruent.of_hasEntries b22 d22 (fun i j _ _ => hB.2.2 _ _ (by omega) (by omega))⟩

/-- The recombination under wrap-around arithmetic, applied to matrices that hold the
reductions of the seven exact products, holds the reductions of the exact recombination. -/
theorem strassenCombine_wrap {bits k : Nat} {M1 M2 M3 M4 M5 M6 M7 P1 P2 P3 P4 P5 P6 P7 : Matrix}
    (m1 : HasEntries k M1 (fun i j => wrap bits (getEntry P1 i j)))
    (m2 : HasEntries k M2 (fun i j => wrap bits (getEntry P2 i j)))
    (m3 : HasEntries k M3 (fun i j => wrap bits (getEntry P3 i j)))
    (m4 : HasEntries k M4 (fun i j => wrap bits (getEntry P4 i j)))
    (m5 : HasEntries k M5 (fun i j => wrap bits (getEntry P5 i j)))
    (m6 : HasEntries k M6 (fun i j => wrap bits (getEntry P6 i j)))
    (m7 : HasEntries k M7 (fun i j => wrap bits (getEntry P7 i j)))
    (p1 : IsSquare k P1) (p2 : IsSquare k P2) (p3 : IsSquare k P3) (p4 : IsSquare k P4)
    (p5 : IsSquare k P5) (p6 : IsSquare k P6) (p7 : IsSquare k P7) :
    HasEntries (2 * k) (strassenCombine (wrap bits) (2 * k) M1 M2 M3 M4 M5 M6 M7)
      (fun r c => wrap bits
        (getEntry (strassenCombine id (2 * k) P1 P2 P3 P4 P5 P6 P7) r c)) := by
  have s1 := HasEntries.self p1
  have s2 := HasEntries.self p2
  have s3 := HasEntries.self p3
  have s4 := HasEntries.self p4
  have s5 := HasEntries.self p5
  have s6 := HasEntries.self p6
  have s7 := HasEntries.self p7
  have c11 := HasEntries.add (wrap bits)
    (HasEntries.subtract (wrap bits) (HasEntries.add (wrap bits) m1 m4) m5) m7
  have c12 := HasEntries.add (wrap bits) m3 m5
  have c21 := HasEntries.add (wrap bits) m2 m4
  have c22 := HasEntries.add (wrap bits)
    (HasEntries.subtract (wrap bits) (HasEntries.add (wrap bits) m1 m3) m2) m6
  have d11 := HasEntries.add id (HasEntries.subtract id (HasEntries.add id s1 s4) s5) s7
  have d12 := HasEntries.add id s3 s5
  have d21 := HasEntries.add id s2 s4
  have d22 := HasEntries.add id (HasEntries.subtract id (HasEntries.add id s1 s3) s2) s6
  have hC := HasEntries.assemble c11 c12 c21 c22
  have hD := HasEntries.assemble d11 d12 d21 d22
  have hk : 2 * k / 2 = k := by omega
  unfold strassenCombine
  simp only [hk]
  refine ⟨hC.1, fun r c hr hc => ?_⟩
  rw [hC.2 r c hr hc]
  beta_reduce
  rw [hD.2 r c hr hc]
  by_cases h1 : r < k <;> by_cases h2 : c < k <;>
    simp only [h1, h2, if_true, if_false, id] <;> apply wrap_congr
  · exact (((wrap_modEq _ _).trans ((wrap_modEq _ _).add (wrap_modEq _ _))).sub
      (wrap_modEq _ _) |> (wrap_modEq _ _).trans).add (wrap_modEq _ _)
  · exact (wrap_modEq _ _).add (wrap_modEq _ _)
  · exact (wrap_modEq _ _).add (wrap_modEq _ _)
  · exact (((wrap_modEq _ _).trans ((wrap_modEq _ _).add (wrap_modEq _ _))).sub
      (wrap_modEq _ _) |> (wrap_modEq _ _).trans).add (wrap_modEq _ _)

/-- On `2 ^ p x 2 ^ p` operands, `strassen` under wrap-around arithmetic of any width
returns the entrywise reductions of the exact product of congruent operands. -/
theorem strassenFuel_wrap (bits : Nat) :
    ∀ p fuel, p < fuel → ∀ A B A2 B2 : Matrix,
      Congruent bits (2 ^ p) A A2 → Congruent bits (2 ^ p) B B2 →
      ∃ C, strassenFuel (wrap bits) fuel A B = some (C, CallTree.full p) ∧
        HasEntries (2 ^ p) C
          (fun i j => wrap bits (getEntry (classicalMultiply id A2 B2) i j)) := by
  intro p
  induction p with
  | zero =>
    intro fuel hf A B A2 B2 hA hB
    obtain ⟨f, rfl⟩ : ∃ f, fuel = f + 1 := ⟨fuel - 1, by omega⟩
    refine ⟨_, strassenFuel_base (wrap bits) f hA.1.1 B, ?_⟩
    have hP := HasEntries.classicalMultiply (HasEntries.self hA.2.1) (HasEntries.self hB.2.1)
    refine ⟨(hasEntries_singleton _).1, fun i j hi hj => ?_⟩
    have hi0 : i = 0 := by omega
    have hj0 : j = 0 := by omega
    subst hi0; subst hj0
    beta_reduce
    rw [hP.2 0 0 hi hj]
    simp only [pow_zero, Finset.range_one, Finset.sum_singleton]
    exact wrap_congr ((hA.2.2 0 0 (by norm_num) (by norm_num)).mul
      (hB.2.2 0 0 (by norm_num) (by norm_num)))
  | succ p ih =>
    intro fuel hf A B A2 B2 hA hB
    obtain ⟨f, rfl⟩ : ∃ f, fuel = f + 1 := ⟨fuel - 1, by omega⟩
    have hpow : (2 : Nat) ^ (p + 1) = 2 * 2 ^ p := by rw [pow_succ, Nat.mul_comm]
    have hpos : 0 < 2 ^ p := Nat.two_pow_pos p
    rw [hpow] at hA hB ⊢
    have hlen : A.length = 2 * 2 ^ p := hA.1.1
    have hhalf : A.length / 2 = 2 ^ p := by omega
    have hA1 : A.length ≠ 1 := by omega
    obtain ⟨q1, q2, q3, q4, q5, q6, q7, q8⟩ := congruent_splitQuadrants hA hB
    have hf2 : p < f := by omega
    obtain ⟨M1, e1, m1⟩ := ih f hf2 _ _ _ _ (congruent_add q1 q4) (congruent_add q5 q8)
    obtain ⟨M2, e2, m2⟩ := ih f hf2 _ _ _ _ (congruent_add q3 q4) q5
    obtain ⟨M3, e3, m3⟩ := ih f hf2 _ _ _ _ q1 (congruent_subtract q6 q8)
    obtain ⟨M4, e4, m4⟩ := ih f hf2 _ _ _ _ q4 (congruent_subtract q7 q5)
    obtain ⟨M5, e5, m5⟩ := ih f hf2 _ _ _ _ (congruent_add q1 q2) q8
    obtain ⟨M6, e6, m6⟩ := ih f hf2 _ _ _ _ (congruent_subtract q3 q1) (congruent_add q5 q6)
    obtain ⟨M7, e7, m7⟩ := ih f hf2 _ _ _ _ (congruent_subtract q2 q4) (congruent_add q7 q8)
    have hmap : (strassenOperands (wrap bits) A B).map
        (fun XY => strassenFuel (wrap bits) f XY.1 XY.2) =
        [some (M1, CallTree.full p), some (M2, CallTree.full p), some (M3, CallTree.full p),
          some (M4, CallTree.full p), some (M5, CallTree.full p), some (M6, CallTree.full p),
          some (M7, CallTree.full p)] := by
      simp only [strassenOperands, hhalf, List.map, e1, e2, e3, e4, e5, e6, e7]
    refine ⟨strassenCombine (wrap bits) (2 * 2 ^ p) M1 M2 M3 M4 M5 M6 M7, ?_, ?_⟩
    · rw [strassenFuel_step (wrap bits) f hA1 B hmap]
      simp only [hlen, CallTree.full, hpow]
    · have hc := strassenCombine_correct hA.2.1 hB.2.1
      rw [← hc]
      exact strassenCombine_wrap m1 m2 m3 m4 m5 m6 m7
        (isSquare_classicalMultiply id (congruent_add q1 q4).2.1.1 _)
        (isSquare_classicalMultiply id (congruent_add q3 q4).2.1.1 _)
        (isSquare_classicalMultiply id q1.2.1.1 _)
        (isSquare_classicalMultiply id q4.2.1.1 _)
        (isSquare_classicalMultiply id (congruent_add q1 q2).2.1.1 _)
        (isSquare_classicalMultiply id (congruent_subtract q3 q1).2.1.1 _)
        (isSquare_classicalMultiply id (congruent_subtract q2 q4).2.1.1 _)

/-- The entries of the exact product of `n x n` matrices of digits lie in `[0, 81 * n]`. -/
theorem classicalMultiply_digits_bounds {n : Nat} {A B : Matrix} (hA : IsSquare n A)
    (hdA : IsDigits n A) (hdB : IsDigits n B) {i j : Nat} (hi : i < n) (hj : j < n) :
    0 ≤ getEntry (classicalMultiply id A B) i j ∧
    getEntry (classicalMultiply id A B) i j ≤ 81 * n := by
  rw [getEntry_classicalMultiply hA.1 B hi hj]
  obtain ⟨_, lo, hi2⟩ := accumulate_exact id n (fun _ _ _ => rfl) (fun k => getEntry A i k)
    (fun k => getEntry B k j) (fun k hk => hdA i hi k hk) (fun k hk => hdB k hk j hj)
    n (le_refl n)
  exact ⟨lo, hi2⟩

/-! ## Checked runs on square operands -/

theorem bind_ok {α β : Type} (a : α) (f : α → Except Fault β) :
    (Except.ok a : Except Fault α).bind f = f a := rfl

theorem readEntry_ok {n : Nat} {M : Matrix} (h : IsSquare n M) {i j : Nat}
    (hi : i < n) (hj : j < n) : readEntry M i j = .ok (getEntry M i j) := by
  have h1 : i < M.length := by rw [h.1]; exact hi
  have h2 : j < (M.getD i []).length := by rw [isSquare_row h hi]; exact hj
  unfold readEntry
  rw [if_pos ⟨h1, h2⟩]

theorem writeEntry_ok {n : Nat} {M : Matrix} (h : IsSquare n M) {i j : Nat}
    (hi : i < n) (hj : j < n) (v : Int) : writeEntry M i j v = .ok (setEntry M i j v) := by
  have h1 : i < M.length := by rw [h.1]; exact hi
  have h2 : j < (M.getD i []).length := by rw [isSquare_row h hi]; exact hj
  unfold writeEntry
  rw [if_pos ⟨h1, h2⟩]

/-- A checked loop whose body, on states that satisfy an invariant, returns what the
unchecked body computes and keeps the invariant, returns what the unchecked loop computes. -/
theorem forLoopM_ok {σ : Type} (Inv : σ → Prop) (n : Nat) (body : Nat → σ → Except Fault σ)
    (body2 : Nat → σ → σ)
    (h : ∀ i, i < n → ∀ s, Inv s → body i s = .ok (body2 i s) ∧ Inv (body2 i s))
    (s : σ) (hs : Inv s) :
    forLoopM n body s = .ok (forLoop n body2 s) ∧ Inv (forLoop n body2 s) := by
  induction n with
  | zero => exact ⟨rfl, hs⟩
  | succ n ih =>
    obtain ⟨e, inv⟩ := ih (fun i hi => h i (Nat.lt_succ_of_lt hi))
    obtain ⟨e2, inv2⟩ := h n (Nat.lt_succ_self n) _ inv
    refine ⟨?_, inv2⟩
    show (forLoopM n body s).bind (body n) = _
    rw [e, bind_ok, e2]
    rfl

theorem addChecked_ok (w : Int → Int) {n : Nat} {A B : Matrix}
    (hA : IsSquare n A) (hB : IsSquare n B) : addChecked w A B = .ok (add w A B) := by
  unfold addChecked add
  rw [hA.1]
  exact (forLoopM_ok (IsSquare n) n _ _ (fun i hi C hC =>
    forLoopM_ok (IsSquare n) n _ _ (fun j hj C hC => by
      rw [readEntry_ok hA hi hj, bind_ok, readEntry_ok hB hi hj, bind_ok,
        writeEntry_ok hC hi hj]
      exact ⟨rfl, isSquare_setEntry hC _ _ _⟩) C hC) _ (isSquare_newMatrix n)).1

theorem subtractChecked_ok (w : Int → Int) {n : Nat} {A B : Matrix}
    (hA : IsSquare n A) (hB : IsSquare n B) :
    subtractChecked w A B = .ok (subtract w A B) := by
  unfold subtractChecked subtract
  rw [hA.1]
  exact (forLoopM_ok (IsSquare n) n _ _ (fun i hi C hC =>
    forLoopM_ok (IsSquare n) n _ _ (fun j hj C hC => by
      rw [readEntry_ok hA hi hj, bind_ok, readEntry_ok hB hi hj, bind_ok,
        writeEntry_ok hC hi hj]
      exact ⟨rfl, isSquare_setEntry hC _ _ _⟩) C hC) _ (isSquare_newMatrix n)).1

theorem classicalMultiplyChecked_ok (w : Int → Int) {n : Nat} {A B : Matrix}
    (hA : IsSquare n A) (hB : IsSquare n B) :
    classicalMultiplyChecked w A B = .ok (classicalMultiply w A B) := by
  unfold classicalMultiplyChecked classicalMultiply
  rw [hA.1]
  exact (forLoopM_ok (IsSquare n) n _ _ (fun i hi C hC =>
    forLoopM_ok (IsSquare n) n _ _ (fun k hk C hC =>
      forLoopM_ok (IsSquare n) n _ _ (fun j hj C hC => by
        rw [readEntry_ok hC hi hj, bind_ok, readEntry_ok hA hi hk, bind_ok,
          readEntry_ok hB hk hj, bind_ok, writeEntry_ok hC hi hj]
        exact ⟨rfl, isSquare_setEntry hC _ _ _⟩) C hC) C hC) _ (isSquare_newMatrix n)).1

theorem splitQuadrantsChecked_ok {n k : Nat} {A B : Matrix} (hk : 2 * k ≤ n)
    (hA : IsSquare n A) (hB : IsSquare n B) :
    splitQuadrantsChecked k A B = .ok (splitQuadrants k A B) := by
  unfold splitQuadrantsChecked splitQuadrants
  exact (forLoopM_ok (fun Q : Quadrants =>
      IsSquare k Q.A11 ∧ IsSquare k Q.A12 ∧ IsSquare k Q.A21 ∧ IsSquare k Q.A22 ∧
      IsSquare k Q.B11 ∧ IsSquare k Q.B12 ∧ IsSquare k Q.B21 ∧ IsSquare k Q.B22)
    k _ _ (fun i hi Q hQ =>
      forLoopM_ok (fun Q : Quadrants =>
        IsSquare k Q.A11 ∧ IsSquare k Q.A12 ∧ IsSquare k Q.A21 ∧ IsSquare k Q.A22 ∧
        IsSquare k Q.B11 ∧ IsSquare k Q.B12 ∧ IsSquare k Q.B21 ∧ IsSquare k Q.B22)
      k _ _ (fun j hj Q hQ => by
        obtain ⟨q1, q2, q3, q4, q5, q6, q7, q8⟩ := hQ
        have hi1 : i < n := by omega
        have hj1 : j < n := by omega
        have hi2 : i + k < n := by omega
        have hj2 : j + k < n := by omega
        rw [readEntry_ok hA hi1 hj1, bind_ok, writeEntry_ok q1 hi hj, bind_ok,
          readEntry_ok hA hi1 hj2, bind_ok, writeEntry_ok q2 hi hj, bind_ok,
          readEntry_ok hA hi2 hj1, bind_ok, writeEntry_ok q3 hi hj, bind_ok,
          readEntry_ok hA hi2 hj2, bind_ok, writeEntry_ok q4 hi hj, bind_ok,
          readEntry_ok hB hi1 hj1, bind_ok, writeEntry_ok q5 hi hj, bind_ok,
          readEntry_ok hB hi1 hj2, bind_ok, writeEntry_ok q6 hi hj, bind_ok,
          readEntry_ok hB hi2 hj1, bind_ok, writeEntry_ok q7 hi hj, bind_ok,
          readEntry_ok hB hi2 hj2, bind_ok, writeEntry_ok q8 hi hj, bind_ok]
        exact ⟨rfl, isSquare_setEntry q1 _ _ _, isSquare_setEntry q2 _ _ _,
          isSquare_setEntry q3 _ _ _, isSquare_setEntry q4 _ _ _,
          isSquare_setEntry q5 _ _ _, isSquare_setEntry q6 _ _ _,
          isSquare_setEntry q7 _ _ _, isSquare_setEntry q8 _ _ _⟩) Q hQ) _
    ⟨isSquare_newMatrix k, isSquare_newMatrix k, isSquare_newMatrix k, isSquare_newMatrix k,
      isSquare_newMatrix k, isSquare_newMatrix k, isSquare_newMatrix k,
      isSquare_newMatrix k⟩).1

theorem assembleChecked_ok {n k : Nat} {C11 C12 C21 C22 : Matrix} (hk : 2 * k ≤ n)
    (h11 : IsSquare k C11) (h12 : IsSquare k C12) (h21 : IsSquare k C21)
    (h22 : IsSquare k C22) :
    assembleChecked n k C11 C12 C21 C22 = .ok (assemble n k C11 C12 C21 C22) := by
  unfold assembleChecked assemble
  exact (forLoopM_ok (IsSquare n) k _ _ (fun i hi C hC =>
    forLoopM_ok (IsSquare n) k _ _ (fun j hj C hC => by
      have hi1 : i < n := by omega
      have hj1 : j < n := by omega
      have hi2 : i + k < n := by omega
      have hj2 : j + k < n := by omega
      have s1 := isSquare_setEntry hC i j (getEntry C11 i j)
      have s2 := isSquare_setEntry s1 i (j + k) (getEntry C12 i j)
      have s3 := isSquare_setEntry s2 (i + k) j (getEntry C21 i j)
      have s4 := isSquare_setEntry s3 (i + k) (j + k) (getEntry C22 i j)
      rw [readEntry_ok h11 hi hj, bind_ok, writeEntry_ok hC hi1 hj1, bind_ok,
        readEntry_ok h12 hi hj, bind_ok, writeEntry_ok s1 hi1 hj2, bind_ok,
        readEntry_ok h21 hi hj, bind_ok, writeEntry_ok s2 hi2 hj1, bind_ok,
        readEntry_ok h22 hi hj, bind_ok, writeEntry_ok s3 hi2 hj2]
      exact ⟨rfl, s4⟩) C hC) _ (isSquare_newMatrix n)).1

/-- On `n x n` operands with `n >= 1` and with more fuel than `log2 n`, the checked run of
`strassen` meets no access out of range and returns the matrix of the unchecked run. -/
theorem strassenChecked_ok (w : Int → Int) :
    ∀ fuel n, 1 ≤ n → Nat.log 2 n < fuel → ∀ A B : Matrix, IsSquare n A → IsSquare n B →
      ∃ r, strassenFuel w fuel A B = some r ∧ strassenChecked w fuel A B = .ok r.1 ∧
        IsSquare n r.1 := by
  intro fuel
  induction fuel with
  | zero => intro n _ h; omega
  | succ f ih =>
    intro n hn hlog A B hA hB
    by_cases h1 : n = 1
    · subst h1
      refine ⟨_, strassenFuel_base w f hA.1 B, ?_, ⟨rfl, by simp⟩⟩
      simp only [strassenChecked, hA.1, if_true]
      rw [readEntry_ok hA Nat.zero_lt_one Nat.zero_lt_one, bind_ok,
        readEntry_ok hB Nat.zero_lt_one Nat.zero_lt_one, bind_ok,
        writeEntry_ok (isSquare_newMatrix 1) Nat.zero_lt_one Nat.zero_lt_one]
      rfl
    · have h2 : 2 ≤ n := by omega
      have hlog2 := log_two_half h2
      have hk : 1 ≤ n / 2 := by omega
      have hf : Nat.log 2 (n / 2) < f := by omega
      have h2k : 2 * (n / 2) ≤ n := by omega
      have hlen := hA.1
      have hA1 : A.length ≠ 1 := by omega
      obtain ⟨a11, a12, a21, a22, b11, b12, b21, b22⟩ := HasEntries.splitQuadrants (n / 2) A B
      have x1 := isSquare_add w a11.1.1 (splitQuadrants (n / 2) A B).A22
      have y1 := isSquare_add w b11.1.1 (splitQuadrants (n / 2) A B).B22
      have x2 := isSquare_add w a21.1.1 (splitQuadrants (n / 2) A B).A22
      have y3 := isSquare_subtract w b12.1.1 (splitQuadrants (n / 2) A B).B22
      have y4 := isSquare_subtract w b21.1.1 (splitQuadrants (n / 2) A B).B11
      have x5 := isSquare_add w a11.1.1 (splitQuadrants (n / 2) A B).A12
      have x6 := isSquare_subtract w a21.1.1 (splitQuadrants (n / 2) A B).A11
      have y6 := isSquare_add w b11.1.1 (splitQuadrants (n / 2) A B).B12
      have x7 := isSquare_subtract w a12.1.1 (splitQuadrants (n / 2) A B).A22
      have y7 := isSquare_add w b21.1.1 (splitQuadrants (n / 2) A B).B22
      obtain ⟨r1, e1, c1, s1⟩ := ih (n / 2) hk hf _ _ x1 y1
      obtain ⟨r2, e2, c2, s2⟩ := ih (n / 2) hk hf _ _ x2 b11.1
      obtain ⟨r3, e3, c3, s3⟩ := ih (n / 2) hk hf _ _ a11.1 y3
      obtain ⟨r4, e4, c4, s4⟩ := ih (n / 2) hk hf _ _ a22.1 y4
      obtain ⟨r5, e5, c5, s5⟩ := ih (n / 2) hk hf _ _ x5 b22.1
      obtain ⟨r6, e6, c6, s6⟩ := ih (n / 2) hk hf _ _ x6 y6
      obtain ⟨r7, e7, c7, s7⟩ := ih (n / 2) hk hf _ _ x7 y7
      have hmap : (strassenOperands w A B).map (fun XY => strassenFuel w f XY.1 XY.2) =
          [some r1, some r2, some r3, some r4, some r5, some r6, some r7] := by
        simp only [strassenOperands, hlen, List.map, e1, e2, e3, e4, e5, e6, e7]
      have t1 := isSquare_add w s1.1 r4.1
      have t2 := isSquare_subtract w t1.1 r5.1
      have t3 := isSquare_add w s1.1 r3.1
      have t4 := isSquare_subtract w t3.1 r2.1
      refine ⟨_, strassenFuel_step w f hA1 B hmap, ?_, ?_⟩
      · simp only [strassenChecked, hlen, h1, if_false]
        rw [splitQuadrantsChecked_ok h2k hA hB, bind_ok,
          addChecked_ok w a11.1 a22.1, bind_ok, addChecked_ok w b11.1 b22.1, bind_ok,
          c1, bind_ok,
          addChecked_ok w a21.1 a22.1, bind_ok, c2, bind_ok,
          subtractChecked_ok w b12.1 b22.1, bind_ok, c3, bind_ok,
          subtractChecked_ok w b21.1 b11.1, bind_ok, c4, bind_ok,
          addChecked_ok w a11.1 a12.1, bind_ok, c5, bind_ok,
          subtractChecked_ok w a21.1 a11.1, bind_ok, addChecked_ok w b11.1 b12.1, bind_ok,
          c6, bind_ok,
          subtractChecked_ok w a12.1 a22.1, bind_ok, addChecked_ok w b21.1 b22.1, bind_ok,
          c7, bind_ok,
          addChecked_ok w s1 s4, bind_ok, subtractChecked_ok w t1 s5, bind_ok,
          addChecked_ok w t2 s7, bind_ok, addChecked_ok w s3 s5, bind_ok,
          addChecked_ok w s2 s4, bind_ok, addChecked_ok w s1 s3, bind_ok,
          subtractChecked_ok w t3 s2, bind_ok, addChecked_ok w t4 s6, bind_ok,
          assembleChecked_ok h2k (isSquare_add w t2.1 r7.1) (isSquare_add w s3.1 r5.1)
            (isSquare_add w s2.1 r4.1) (isSquare_add w t4.1 r6.1)]
        rfl
      · rw [hlen]
        exact isSquare_strassenCombine _ _ _ _ _ _ _ _ _

/-- The checked runs do stop at an access out of range: operands of unequal sizes. -/
theorem checked_runs_detect_faults :
    addChecked id [[1, 2], [3, 4]] [[5, 6]] = .error Fault.outOfRange ∧
    classicalMultiplyChecked id [[1, 2], [3, 4]] [[5, 6], [7]] = .error Fault.outOfRange ∧
    strassenChecked id 3 [[1, 2], [3, 4]] [[5, 6], [7]] = .error Fault.outOfRange ∧
    strassenChecked id 3 [[1, 2], [3, 4]] [[5, 6], [7, 8]] = .ok [[19, 22], [43, 50]] :=
  ⟨rfl, rfl, rfl, rfl⟩

/-! ## Claims -/

/-- C1. For every `p` and all `2 ^ p x 2 ^ p` integer matrices `A` and `B`, `strassen(A, B)`
returns, in exact integer arithmetic, the matrix `classicalMultiply(A, B)`; so does the
recursion run with any amount of fuel above `p`. -/
theorem strassen_eq_classicalMultiply (p : Nat) (A B : Matrix)
    (hA : IsSquare (2 ^ p) A) (hB : IsSquare (2 ^ p) B) :
    strassen id A B = some (classicalMultiply id A B) ∧
    ∀ fuel, p < fuel →
      (strassenFuel id fuel A B).map Prod.fst = some (classicalMultiply id A B) := by
  have hlt : p < A.length + 1 := by
    rw [hA.1]
    exact Nat.lt_succ_of_lt (Nat.lt_two_pow p)
  constructor
  · unfold strassen
    rw [strassenFuel_correct p _ hlt A B hA hB]; rfl
  · intro fuel hf
    rw [strassenFuel_correct p fuel hf A B hA hB]; rfl

theorem strassen_eq_classicalMultiply_witness :
    strassen id [[1, 2, 0, 1], [3, 4, 1, 0], [0, 2, 5, 1], [7, 0, 1, 3]]
        [[5, 6, 1, 0], [7, 8, 0, 2], [1, 0, 9, 3], [0, 4, 2, 6]] =
      some (classicalMultiply id [[1, 2, 0, 1], [3, 4, 1, 0], [0, 2, 5, 1], [7, 0, 1, 3]]
        [[5, 6, 1, 0], [7, 8, 0, 2], [1, 0, 9, 3], [0, 4, 2, 6]]) :=
  (strassen_eq_classicalMultiply 2 _ _ (by decide) (by decide)).1

/-- C2. For every `n` and all `n x n` integer matrices `A` and `B`, `classicalMultiply(A, B)`,
whose loops run in the order row `i`, contraction index `k`, column `j`, is the `n x n` matrix
with entry `sum over k < n of A[i][k] * B[k][j]` at every `(i, j)`, and it is the matrix the
definitional loop order `i, j, k` computes. -/
theorem classicalMultiply_entries (n : Nat) (A B : Matrix)
    (hA : IsSquare n A) (hB : IsSquare n B) :
    IsSquare n (classicalMultiply id A B) ∧
    (∀ i j, i < n → j < n →
      getEntry (classicalMultiply id A B) i j =
        ∑ k in Finset.range n, getEntry A i k * getEntry B k j) ∧
    classicalMultiply id A B = classicalMultiplyIJK id A B := by
  have h := HasEntries.classicalMultiply (HasEntries.self hA) (HasEntries.self hB)
  exact ⟨h.1, h.2, classicalMultiply_eq_IJK id A B⟩

theorem classicalMultiply_entries_witness :
    IsSquare 2 (classicalMultiply id [[1, 2], [3, 4]] [[5, 6], [7, 8]]) ∧
    (∀ i j, i < 2 → j < 2 →
      getEntry (classicalMultiply id [[1, 2], [3, 4]] [[5, 6], [7, 8]]) i j =
        ∑ k in Finset.range 2,
          getEntry [[1, 2], [3, 4]] i k * getEntry [[5, 6], [7, 8]] k j) ∧
    classicalMultiply id [[1, 2], [3, 4]] [[5, 6], [7, 8]] =
      classicalMultiplyIJK id [[1, 2], [3, 4]] [[5, 6], [7, 8]] :=
  classicalMultiply_entries 2 [[1, 2], [3, 4]] [[5, 6], [7, 8]] (by decide) (by decide)

/-- C3. For all `n x n` integer matrices `A` and `B` and all `i, j < n`, the entry `(i, j)` of
`add(A, B)` is `A[i][j] + B[i][j]` and that of `subtract(A, B)` is `A[i][j] - B[i][j]`. -/
theorem add_subtract_entries (n : Nat) (A B : Matrix)
    (hA : IsSquare n A) (hB : IsSquare n B) (i j : Nat) (hi : i < n) (hj : j < n) :
    getEntry (add id A B) i j = getEntry A i j + getEntry B i j ∧
    getEntry (subtract id A B) i j = getEntry A i j - getEntry B i j := by
  have h1 := (HasEntries.add id (HasEntries.self hA) (HasEntries.self hB)).2 i j hi hj
  have h2 := (HasEntries.subtract id (HasEntries.self hA) (HasEntries.self hB)).2 i j hi hj
  exact ⟨h1, h2⟩

theorem add_subtract_entries_witness :
    getEntry (add id [[1, 2], [3, 4]] [[5, 6], [7, 8]]) 1 0 =
      getEntry [[1, 2], [3, 4]] 1 0 + getEntry [[5, 6], [7, 8]] 1 0 ∧
    getEntry (subtract id [[1, 2], [3, 4]] [[5, 6], [7, 8]]) 1 0 =
      getEntry [[1, 2], [3, 4]] 1 0 - getEntry [[5, 6], [7, 8]] 1 0 :=
  add_subtract_entries 2 [[1, 2], [3, 4]] [[5, 6], [7, 8]] (by decide) (by decide) 1 0
    (by decide) (by decide)

/-- C4. Identity property: for every `n x n` matrix `A`, `classicalMultiply(A, I)` and
`classicalMultiply(I, A)` are `A`, and when `n` is a power of two `strassen(A, I)` and
`strassen(I, A)` return `A`. -/
theorem multiply_identity (n : Nat) (A : Matrix) (hA : IsSquare n A) :
    (classicalMultiply id A (identity n) = A ∧ classicalMultiply id (identity n) A = A) ∧
    ∀ p, n = 2 ^ p →
      strassen id A (identity n) = some A ∧ strassen id (identity n) A = some A := by
  refine ⟨⟨classicalMultiply_identity_right hA, classicalMultiply_identity_left hA⟩, ?_⟩
  intro p hp
  subst hp
  have hI := (hasEntries_identity (2 ^ p)).1
  have h1 : p < A.length + 1 := by
    rw [hA.1]; exact Nat.lt_succ_of_lt (Nat.lt_two_pow p)
  have h2 : p < (identity (2 ^ p)).length + 1 := by
    rw [hI.1]; exact Nat.lt_succ_of_lt (Nat.lt_two_pow p)
  constructor
  · unfold strassen
    rw [strassenFuel_correct p _ h1 A _ hA hI, classicalMultiply_identity_right hA]; rfl
  · unfold strassen
    rw [strassenFuel_correct p _ h2 _ A hI hA, classicalMultiply_identity_left hA]; rfl

theorem multiply_identity_witness :
    (classicalMultiply id [[1, 2], [3, 4]] (identity 2) = [[1, 2], [3, 4]] ∧
      classicalMultiply id (identity 2) [[1, 2], [3, 4]] = [[1, 2], [3, 4]]) ∧
    ∀ p, 2 = 2 ^ p →
      strassen id [[1, 2], [3, 4]] (identity 2) = some [[1, 2], [3, 4]] ∧
      strassen id (identity 2) [[1, 2], [3, 4]] = some [[1, 2], [3, 4]] :=
  multiply_identity 2 [[1, 2], [3, 4]] (by decide)

/-- C5. Zero property: for every `n x n` matrix `A`, `classicalMultiply(A, Z)` and
`classicalMultiply(Z, A)` are the `n x n` all-zero matrix `Z`, and for `n >= 1` so are
the results of `strassen(A, Z)` and `strassen(Z, A)`. -/
theorem multiply_zero (n : Nat) (A : Matrix) (hA : IsSquare n A) :
    (classicalMultiply id A (zero n) = zero n ∧ classicalMultiply id (zero n) A = zero n) ∧
    (1 ≤ n →
      strassen id A (zero n) = some (zero n) ∧ strassen id (zero n) A = some (zero n)) := by
  refine ⟨⟨classicalMultiply_zero_right hA, classicalMultiply_zero_left hA⟩, ?_⟩
  intro hn
  constructor
  · obtain ⟨r, hr, hz⟩ := strassenFuel_zero_right (A.length + 1) n hn
      (by rw [hA.1]; exact log_two_lt_succ n) A hA.1
    unfold strassen
    rw [hr, ← hz]; rfl
  · obtain ⟨r, hr, hz⟩ := strassenFuel_zero_left ((zero n).length + 1) n hn
      (by rw [length_zero]; exact log_two_lt_succ n) A
    unfold strassen
    rw [hr, ← hz]; rfl

theorem multiply_zero_witness :
    (classicalMultiply id [[1, 2, 3], [4, 5, 6], [7, 8, 9]] (zero 3) = zero 3 ∧
      classicalMultiply id (zero 3) [[1, 2, 3], [4, 5, 6], [7, 8, 9]] = zero 3) ∧
    (1 ≤ 3 →
      strassen id [[1, 2, 3], [4, 5, 6], [7, 8, 9]] (zero 3) = some (zero 3) ∧
      strassen id (zero 3) [[1, 2, 3], [4, 5, 6], [7, 8, 9]] = some (zero 3)) :=
  multiply_zero 3 [[1, 2, 3], [4, 5, 6], [7, 8, 9]] (by decide)

/-- C6. The recursion depth of `strassen` is `log2 n`: on `n x n` operands with `n >= 1`
the recursion returns with every amount of fuel above `log2 n`, after exactly `log2 n`
levels of recursion, and with no less fuel; every recursive call is on square operands of
size `n / 2 < n`; and for `n = 2 ^ p` the base case is reached after exactly `p` levels. -/
theorem strassen_depth (w : Int → Int) (n : Nat) (A B : Matrix) (hn : 1 ≤ n)
    (hA : IsSquare n A) (hB : IsSquare n B) :
    (∃ C, strassen w A B = some C) ∧
    (∀ fuel, Nat.log 2 n < fuel →
      ∃ r, strassenFuel w fuel A B = some r ∧ r.2.depth = Nat.log 2 n) ∧
    (∀ fuel, fuel ≤ Nat.log 2 n → strassenFuel w fuel A B = none) ∧
    (n / 2 < n ∧
      ∀ XY ∈ strassenOperands w A B, IsSquare (n / 2) XY.1 ∧ IsSquare (n / 2) XY.2) ∧
    (∀ p, n = 2 ^ p →
      (∃ r, strassenFuel w (p + 1) A B = some r ∧ r.2.depth = p) ∧
      strassenFuel w p A B = none) := by
  have hB1 := hB.1
  have hsq := strassenOperands_square w A B
  rw [hA.1] at hsq
  refine ⟨?_, ?_, ?_, ⟨by omega, hsq⟩, ?_⟩
  · obtain ⟨r, hr, _⟩ := strassenFuel_total w (A.length + 1) n hn
      (by rw [hA.1]; exact log_two_lt_succ n) A B hA.1
    exact ⟨r.1, by unfold strassen; rw [hr]; rfl⟩
  · intro fuel hf
    obtain ⟨r, hr, _, hd⟩ := strassenFuel_total w fuel n hn hf A B hA.1
    exact ⟨r, hr, hd⟩
  · intro fuel hf
    exact strassenFuel_short w fuel n hn hf A B hA.1
  · intro p hp
    have hlog : Nat.log 2 n = p := by rw [hp]; exact Nat.log_pow (by norm_num) p
    constructor
    · obtain ⟨r, hr, _, hd⟩ := strassenFuel_total w (p + 1) n hn (by omega) A B hA.1
      exact ⟨r, hr, by rw [hd, hlog]⟩
    · exact strassenFuel_short w p n hn (by omega) A B hA.1

theorem strassen_depth_witness :
    (∃ C, strassen id [[1, 2], [3, 4]] [[5, 6], [7, 8]] = some C) ∧
    (∀ fuel, Nat.log 2 2 < fuel →
      ∃ r, strassenFuel id fuel [[1, 2], [3, 4]] [[5, 6], [7, 8]] = some r ∧
        r.2.depth = Nat.log 2 2) ∧
    (∀ fuel, fuel ≤ Nat.log 2 2 →
      strassenFuel id fuel [[1, 2], [3, 4]] [[5, 6], [7, 8]] = none) ∧
    (2 / 2 < 2 ∧
      ∀ XY ∈ strassenOperands id [[1, 2], [3, 4]] [[5, 6], [7, 8]],
        IsSquare (2 / 2) XY.1 ∧ IsSquare (2 / 2) XY.2) ∧
    (∀ p, 2 = 2 ^ p →
      (∃ r, strassenFuel id (p + 1) [[1, 2], [3, 4]] [[5, 6], [7, 8]] = some r ∧
        r.2.depth = p) ∧
      strassenFuel id p [[1, 2], [3, 4]] [[5, 6], [7, 8]] = none) :=
  strassen_depth id 2 [[1, 2], [3, 4]] [[5, 6], [7, 8]] (by decide) (by decide) (by decide)

/-- C7. Every operation returns a square matrix of the operands' size: for `n x n` operands
`add`, `subtract` and `classicalMultiply` return `n x n` matrices, and for `n >= 1` so does
`strassen`; for `n >= 2` each of the seven recursive products is `k x k` with `k = n / 2`. -/
theorem results_square (w : Int → Int) (n : Nat) (A B : Matrix)
    (hA : IsSquare n A) (hB : IsSquare n B) :
    IsSquare n (add w A B) ∧ IsSquare n (subtract w A B) ∧
    IsSquare n (classicalMultiply w A B) ∧
    (1 ≤ n → ∃ C, strassen w A B = some C ∧ IsSquare n C) ∧
    (2 ≤ n → ∀ fuel, Nat.log 2 (n / 2) < fuel → ∀ XY ∈ strassenOperands w A B,
      ∃ M, strassenFuel w fuel XY.1 XY.2 = some M ∧ IsSquare (n / 2) M.1) := by
  have hB1 := hB.1
  refine ⟨isSquare_add w hA.1 B, isSquare_subtract w hA.1 B,
    isSquare_classicalMultiply w hA.1 B, ?_, ?_⟩
  · intro hn
    obtain ⟨r, hr, hs, _⟩ := strassenFuel_total w (A.length + 1) n hn
      (by rw [hA.1]; exact log_two_lt_succ n) A B hA.1
    exact ⟨r.1, by unfold strassen; rw [hr]; rfl, hs⟩
  · intro hn fuel hf XY hXY
    have hsq := strassenOperands_square w A B XY hXY
    rw [hA.1] at hsq
    obtain ⟨r, hr, hs, _⟩ := strassenFuel_total w fuel (n / 2) (by omega) hf XY.1 XY.2 hsq.1.1
    exact ⟨r, hr, hs⟩

theorem results_square_witness :
    IsSquare 2 (add id [[1, 2], [3, 4]] [[5, 6], [7, 8]]) ∧
    IsSquare 2 (subtract id [[1, 2], [3, 4]] [[5, 6], [7, 8]]) ∧
    IsSquare 2 (classicalMultiply id [[1, 2], [3, 4]] [[5, 6], [7, 8]]) ∧
    (1 ≤ 2 → ∃ C, strassen id [[1, 2], [3, 4]] [[5, 6], [7, 8]] = some C ∧ IsSquare 2 C) ∧
    (2 ≤ 2 → ∀ fuel, Nat.log 2 (2 / 2) < fuel →
      ∀ XY ∈ strassenOperands id [[1, 2], [3, 4]] [[5, 6], [7, 8]],
        ∃ M, strassenFuel id fuel XY.1 XY.2 = some M ∧ IsSquare (2 / 2) M.1) :=
  results_square id 2 [[1, 2], [3, 4]] [[5, 6], [7, 8]] (by decide) (by decide)

/-- C8. On `n x n` operands with `n = 2 ^ p`, `strassen` makes exactly seven recursive calls
at every level above the base case, its calls form the complete tree of depth `p`, and it
performs exactly `7 ^ p` base-case scalar multiplications, whereas `classicalMultiply`
performs `n ^ 3 = 8 ^ p` scalar multiplications. -/
theorem multiplication_counts (w : Int → Int) (p : Nat) (A B : Matrix)
    (hA : IsSquare (2 ^ p) A) (hB : IsSquare (2 ^ p) B) :
    (strassenOperands w A B).length = 7 ∧
    (∃ r, strassenFuel w (p + 1) A B = some r ∧ r.2 = CallTree.full p ∧ r.2.muls = 7 ^ p) ∧
    (classicalMultiplyCount w A B).1 = classicalMultiply w A B ∧
    (classicalMultiplyCount w A B).2 = (2 ^ p) ^ 3 ∧
    ((2 : Nat) ^ p) ^ 3 = 8 ^ p := by
  have hB1 := hB.1
  refine ⟨strassenOperands_length w A B, ?_, classicalMultiplyCount_fst w A B, ?_, ?_⟩
  · obtain ⟨r, hr, ht⟩ := strassenFuel_tree w p (p + 1) (Nat.lt_succ_self p) A B hA.1
    exact ⟨r, hr, ht, by rw [ht, CallTree.muls_full]⟩
  · rw [classicalMultiplyCount_snd, hA.1]
  · rw [← pow_mul, Nat.mul_comm, pow_mul]; norm_num

theorem multiplication_counts_witness :
    (strassenOperands id [[1, 2], [3, 4]] [[5, 6], [7, 8]]).length = 7 ∧
    (∃ r, strassenFuel id (1 + 1) [[1, 2], [3, 4]] [[5, 6], [7, 8]] = some r ∧
      r.2 = CallTree.full 1 ∧ r.2.muls = 7 ^ 1) ∧
    (classicalMultiplyCount id [[1, 2], [3, 4]] [[5, 6], [7, 8]]).1 =
      classicalMultiply id [[1, 2], [3, 4]] [[5, 6], [7, 8]] ∧
    (classicalMultiplyCount id [[1, 2], [3, 4]] [[5, 6], [7, 8]]).2 = (2 ^ 1) ^ 3 ∧
    ((2 : Nat) ^ 1) ^ 3 = 8 ^ 1 :=
  multiplication_counts id 1 [[1, 2], [3, 4]] [[5, 6], [7, 8]] (by decide) (by decide)

/-- C9. For every `n` (in particular every `n >= 1`) and every sequence `rand` of non-negative
values returned by the pseudo-random source, `generateMatrix(n)` draws `n * n` values and
returns an `n x n` matrix whose entry `(i, j)` is the value drawn at position `i * n + j`
modulo 10, which lies in `0..9`. -/
theorem generateMatrix_entries (rand : Nat → Int) (n : Nat) (hrand : ∀ t, 0 ≤ rand t) :
    IsSquare n (generateMatrix rand n).1 ∧
    (generateMatrix rand n).2 = n * n ∧
    ∀ i j, i < n → j < n →
      getEntry (generateMatrix rand n).1 i j = rand (i * n + j) % 10 ∧
      0 ≤ getEntry (generateMatrix rand n).1 i j ∧
      getEntry (generateMatrix rand n).1 i j ≤ 9 := by
  rw [generateMatrix_eq]
  refine ⟨isSquare_fill _ _, rfl, fun i j hi hj => ?_⟩
  have e : getEntry (fill n fun i j => Int.tmod (rand (i * n + j)) 10) i j =
      rand (i * n + j) % 10 := by
    rw [getEntry_fill _ _ hi hj]
    exact Int.tmod_eq_emod (hrand _) (by norm_num)
  have h1 := Int.emod_nonneg (rand (i * n + j)) (by norm_num : (10 : Int) ≠ 0)
  have h2 := Int.emod_lt_of_pos (rand (i * n + j)) (by norm_num : (0 : Int) < 10)
  exact ⟨e, by rw [e]; exact h1, by rw [e]; omega⟩

theorem generateMatrix_entries_witness :
    IsSquare 2 (generateMatrix (fun t => 7 * t + 13) 2).1 ∧
    (generateMatrix (fun t => 7 * t + 13) 2).2 = 2 * 2 ∧
    ∀ i j, i < 2 → j < 2 →
      getEntry (generateMatrix (fun t => 7 * t + 13) 2).1 i j =
        (fun t : Nat => (7 * t + 13 : Int)) (i * 2 + j) % 10 ∧
      0 ≤ getEntry (generateMatrix (fun t => 7 * t + 13) 2).1 i j ∧
      getEntry (generateMatrix (fun t => 7 * t + 13) 2).1 i j ≤ 9 :=
  generateMatrix_entries (fun t => 7 * t + 13) 2 (fun t => by positivity)

/-- C10. Report of variant 2: with `trials >= 1` trials over the sizes `2 ^ 1, ..., 2 ^ powers`
(sizes that fit an `int`, `powers <= 30`), non-negative timings and sums over the trials that
fit the `int` accumulator, the file consists of exactly two lines: `Name` followed by
`,2^i` for `i = 1..powers` in increasing order, and `Classical` followed for each
`i = 1..powers` by `,` and the truncated quotient of the sum over the trials of the timings
for the size `2 ^ i` by `trials`. -/
theorem mainReport_content (trials powers : Nat) (time : Nat → Nat → Int)
    (hT : 0 < trials) (hP : powers ≤ 30)
    (hpos : ∀ i, i < trials → ∀ q, q < powers → 0 ≤ time i (q + 1))
    (hfit : ∀ q, q < powers → ∑ i in Finset.range trials, time i (q + 1) < 2 ^ 31) :
    mainReport trials powers time =
      "Name" ++ String.join ((List.range powers).map fun q =>
        "," ++ toString ((2 : Int) ^ (q + 1))) ++ "\n" ++
      "Classical" ++ String.join ((List.range powers).map fun q =>
        "," ++ toString (Int.tdiv (∑ i in Finset.range trials, time i (q + 1)) trials)) ++
      "\n" := by
  have _hT := hT
  obtain ⟨_, hsum⟩ := accumulateResults_spec trials powers time hpos hfit trials (le_refl _)
  have hhead : ∀ (q : Nat) (out : String), q < powers →
      out ++ "," ++ toString (wrap 32 (2 ^ (q + 1))) =
        out ++ "," ++ toString ((2 : Int) ^ (q + 1)) := by
    intro q out hq
    have h1 : (2 : Int) ^ (q + 1) ≤ 2 ^ 30 :=
      pow_le_pow_right₀ (by norm_num) (by omega)
    have h2 : (0 : Int) < 2 ^ (q + 1) := by positivity
    rw [wrap_eq (by omega) (by omega)]
  have hdata : ∀ (q : Nat) (out : String), q < powers →
      out ++ "," ++ toString (Int.tdiv ((accumulateResults trials powers time).getD q 0)
          trials) =
        out ++ "," ++
          toString (Int.tdiv (∑ i in Finset.range trials, time i (q + 1)) trials) := by
    intro q out hq
    unfold accumulateResults
    rw [hsum q hq]
  unfold mainReport writeReport
  simp only []
  rw [forLoop_congr powers _ _ hhead, forLoop_congr powers _ _ hdata,
    forLoop_append, forLoop_append]

theorem mainReport_content_witness :
    mainReport 2 2 (fun i power => if i = 0 then (if power = 1 then 3 else 8)
        else (if power = 1 then 4 else 9)) = "Name,2,4\nClassical,3,8\n" :=
  (mainReport_content 2 2 _ (by decide) (by decide) (by decide)
    (by intro q hq; interval_cases q <;> simp [Finset.sum_range_succ])).trans (by decide)

/-- C11. Base case: for all `1 x 1` matrices `[[a]]` and `[[b]]`, `strassen` returns
`[[a * b]]`, and the call made is the base case alone, without any recursive call, as soon
as there is fuel for one call. -/
theorem strassen_base_case (a b : Int) :
    strassen id [[a]] [[b]] = some [[a * b]] ∧
    ∀ fuel, strassenFuel id (fuel + 1) [[a]] [[b]] = some ([[a * b]], CallTree.base) :=
  ⟨rfl, fun _ => rfl⟩

/-- C12. For `A = [[1,2],[3,4]]` and `B = [[5,6],[7,8]]` both `classicalMultiply(A, B)` and
`strassen(A, B)` give `[[19,22],[43,50]]`. -/
theorem two_by_two_example :
    classicalMultiply id [[1, 2], [3, 4]] [[5, 6], [7, 8]] = [[19, 22], [43, 50]] ∧
    strassen id [[1, 2], [3, 4]] [[5, 6], [7, 8]] = some [[19, 22], [43, 50]] := by
  decide

/-- C13. For every odd `n >= 3` and all `n x n` matrices `A`, `B`, `strassen(A, B)` returns
an `n x n` matrix whose last row and last column are entirely `0`; and for `A = B` the
`3 x 3` identity the result of `strassen` is not that of `classicalMultiply`. -/
theorem strassen_odd_truncates (w : Int → Int) (n : Nat) (A B : Matrix)
    (hn : 3 ≤ n) (hodd : n % 2 = 1) (hA : IsSquare n A) (hB : IsSquare n B) :
    (∃ C, strassen w A B = some C ∧ IsSquare n C ∧
      (∀ j, j < n → getEntry C (n - 1) j = 0) ∧ (∀ i, i < n → getEntry C i (n - 1) = 0)) ∧
    strassen id (identity 3) (identity 3) ≠
      some (classicalMultiply id (identity 3) (identity 3)) := by
  have hB1 := hB.1
  refine ⟨?_, by decide⟩
  obtain ⟨M1, M2, M3, M4, M5, M6, M7, t, h⟩ := strassenFuel_node w (A.length + 1) n
    (by omega) (by rw [hA.1]; exact log_two_lt_succ n) A B hA.1
  refine ⟨_, by unfold strassen; rw [h]; rfl, isSquare_strassenCombine _ _ _ _ _ _ _ _ _,
    fun j hj => ?_, fun i hi => ?_⟩
  · unfold strassenCombine
    rw [getEntry_assemble _ _ _ _ _ _ (by omega) hj]
    have : ¬ (n - 1 < 2 * (n / 2) ∧ j < 2 * (n / 2)) := by omega
    simp only [this, if_false]
  · unfold strassenCombine
    rw [getEntry_assemble _ _ _ _ _ _ hi (by omega)]
    have : ¬ (i < 2 * (n / 2) ∧ n - 1 < 2 * (n / 2)) := by omega
    simp only [this, if_false]

theorem strassen_odd_truncates_witness :
    (∃ C, strassen id [[1, 2, 3], [4, 5, 6], [7, 8, 9]] [[1, 0, 2], [0, 1, 0], [3, 0, 1]] =
        some C ∧ IsSquare 3 C ∧
      (∀ j, j < 3 → getEntry C (3 - 1) j = 0) ∧ (∀ i, i < 3 → getEntry C i (3 - 1) = 0)) ∧
    strassen id (identity 3) (identity 3) ≠
      some (classicalMultiply id (identity 3) (identity 3)) :=
  strassen_odd_truncates id 3 [[1, 2, 3], [4, 5, 6], [7, 8, 9]]
    [[1, 0, 2], [0, 1, 0], [3, 0, 1]] (by decide) (by decide) (by decide) (by decide)

/-- C17. On the empty matrix `strassen` does not terminate: `n = 0` is not the base case,
`k = 0`, each of the seven recursive calls is again on `0 x 0` operands, and the recursion
runs out of fuel for every amount of fuel. -/
theorem strassen_empty_diverges (w : Int → Int) (B : Matrix) :
    ([] : Matrix).length ≠ 1 ∧ ([] : Matrix).length / 2 = 0 ∧
    (∀ XY ∈ strassenOperands w [] B, XY = ([], [])) ∧
    (∀ fuel, strassenFuel w fuel [] B = none) ∧
    strassen w [] B = none := by
  refine ⟨by decide, rfl, ?_, fun fuel => strassenFuel_nil w fuel B, ?_⟩
  · intro XY hXY
    simp only [strassenOperands, List.mem_cons, List.mem_singleton, List.not_mem_nil,
      or_false] at hXY
    rcases hXY with h | h | h | h | h | h | h <;> subst h <;> rfl
  · unfold strassen
    rw [strassenFuel_nil]; rfl

/-- C18. Quadrant split and reassembly are inverse: for `n = 2 * k`, splitting an `n x n`
operand (`A` or `B`) into its four `k x k` quadrants as `strassen` does and writing them
back at the offsets `(0,0)`, `(0,k)`, `(k,0)`, `(k,k)` gives the operand again; and
splitting the reassembly of four `k x k` matrices returns these four matrices. -/
theorem split_assemble_inverse (k : Nat) (A B C11 C12 C21 C22 : Matrix)
    (hA : IsSquare (2 * k) A) (hB : IsSquare (2 * k) B)
    (h11 : IsSquare k C11) (h12 : IsSquare k C12) (h21 : IsSquare k C21)
    (h22 : IsSquare k C22) :
    (assemble (2 * k) k (splitQuadrants k A B).A11 (splitQuadrants k A B).A12
        (splitQuadrants k A B).A21 (splitQuadrants k A B).A22 = A ∧
      assemble (2 * k) k (splitQuadrants k A B).B11 (splitQuadrants k A B).B12
        (splitQuadrants k A B).B21 (splitQuadrants k A B).B22 = B) ∧
    ((splitQuadrants k (assemble (2 * k) k C11 C12 C21 C22) B).A11 = C11 ∧
      (splitQuadrants k (assemble (2 * k) k C11 C12 C21 C22) B).A12 = C12 ∧
      (splitQuadrants k (assemble (2 * k) k C11 C12 C21 C22) B).A21 = C21 ∧
      (splitQuadrants k (assemble (2 * k) k C11 C12 C21 C22) B).A22 = C22) ∧
    ((splitQuadrants k A (assemble (2 * k) k C11 C12 C21 C22)).B11 = C11 ∧
      (splitQuadrants k A (assemble (2 * k) k C11 C12 C21 C22)).B12 = C12 ∧
      (splitQuadrants k A (assemble (2 * k) k C11 C12 C21 C22)).B21 = C21 ∧
      (splitQuadrants k A (assemble (2 * k) k C11 C12 C21 C22)).B22 = C22) :=
  ⟨⟨assemble_splitQuadrants_left hA B, assemble_splitQuadrants_right A hB⟩,
    splitQuadrants_assemble_left h11 h12 h21 h22 B,
    splitQuadrants_assemble_right h11 h12 h21 h22 A⟩

theorem split_assemble_inverse_witness :
    (assemble (2 * 1) 1 (splitQuadrants 1 [[1, 2], [3, 4]] [[5, 6], [7, 8]]).A11
        (splitQuadrants 1 [[1, 2], [3, 4]] [[5, 6], [7, 8]]).A12
        (splitQuadrants 1 [[1, 2], [3, 4]] [[5, 6], [7, 8]]).A21
        (splitQuadrants 1 [[1, 2], [3, 4]] [[5, 6], [7, 8]]).A22 = [[1, 2], [3, 4]] ∧
      assemble (2 * 1) 1 (splitQuadrants 1 [[1, 2], [3, 4]] [[5, 6], [7, 8]]).B11
        (splitQuadrants 1 [[1, 2], [3, 4]] [[5, 6], [7, 8]]).B12
        (splitQuadrants 1 [[1, 2], [3, 4]] [[5, 6], [7, 8]]).B21
        (splitQuadrants 1 [[1, 2], [3, 4]] [[5, 6], [7, 8]]).B22 = [[5, 6], [7, 8]]) ∧
    ((splitQuadrants 1 (assemble (2 * 1) 1 [[1]] [[2]] [[3]] [[4]]) [[5, 6], [7, 8]]).A11 =
        [[1]] ∧
      (splitQuadrants 1 (assemble (2 * 1) 1 [[1]] [[2]] [[3]] [[4]]) [[5, 6], [7, 8]]).A12 =
        [[2]] ∧
      (splitQuadrants 1 (assemble (2 * 1) 1 [[1]] [[2]] [[3]] [[4]]) [[5, 6], [7, 8]]).A21 =
        [[3]] ∧
      (splitQuadrants 1 (assemble (2 * 1) 1 [[1]] [[2]] [[3]] [[4]]) [[5, 6], [7, 8]]).A22 =
        [[4]]) ∧
    ((splitQuadrants 1 [[1, 2], [3, 4]] (assemble (2 * 1) 1 [[1]] [[2]] [[3]] [[4]])).B11 =
        [[1]] ∧
      (splitQuadrants 1 [[1, 2], [3, 4]] (assemble (2 * 1) 1 [[1]] [[2]] [[3]] [[4]])).B12 =
        [[2]] ∧
      (splitQuadrants 1 [[1, 2], [3, 4]] (assemble (2 * 1) 1 [[1]] [[2]] [[3]] [[4]])).B21 =
        [[3]] ∧
      (splitQuadrants 1 [[1, 2], [3, 4]] (assemble (2 * 1) 1 [[1]] [[2]] [[3]] [[4]])).B22 =
        [[4]]) :=
  split_assemble_inverse 1 [[1, 2], [3, 4]] [[5, 6], [7, 8]] [[1]] [[2]] [[3]] [[4]]
    (by decide) (by decide) (by decide) (by decide) (by decide) (by decide)

/-- C15. The classical multipliers of the two variants agree on benchmark inputs: for
`n <= 4096` and `n x n` matrices with entries in `0..9`, in every state of the 32-bit
`classicalMultiply` of variant 1 the matrix `C` equals that of the run in exact arithmetic,
so that no 32-bit operation overflows, and its entries lie in `[0, 81 * n]`; the result
equals that of the 64-bit `classicalMultiply` of variant 2, and its entries are the exact
sums of products. -/
theorem classicalMultiply_widths_agree (n : Nat) (A B : Matrix) (hn : n ≤ 4096)
    (hA : IsSquare n A) (hB : IsSquare n B) (hdA : IsDigits n A) (hdB : IsDigits n B) :
    (∀ i0 k0 j0, i0 ≤ n → k0 < n → j0 ≤ n →
      classicalMultiplyState (wrap 32) A B i0 k0 j0 = classicalMultiplyState id A B i0 k0 j0 ∧
      ∀ r c, r < n → c < n →
        0 ≤ getEntry (classicalMultiplyState (wrap 32) A B i0 k0 j0) r c ∧
        getEntry (classicalMultiplyState (wrap 32) A B i0 k0 j0) r c ≤ 81 * n) ∧
    classicalMultiplyState (wrap 32) A B n 0 0 = classicalMultiply (wrap 32) A B ∧
    classicalMultiply (wrap 32) A B = classicalMultiply (wrap 64) A B ∧
    classicalMultiply (wrap 32) A B = classicalMultiply id A B ∧
    ∀ i j, i < n → j < n →
      getEntry (classicalMultiply (wrap 32) A B) i j =
        ∑ k in Finset.range n, getEntry A i k * getEntry B k j := by
  have hB1 := hB.1
  have h32 := wrap_32_exact hn
  have h64 := wrap_64_exact hn
  have hid : ∀ x : Int, 0 ≤ x → x ≤ 81 * n → id x = x := fun _ _ _ => rfl
  have hfin : ∀ w : Int → Int, classicalMultiplyState w A B n 0 0 = classicalMultiply w A B := by
    intro w
    rw [← hA.1]
    exact classicalMultiplyState_final w A B
  have heq : ∀ w : Int → Int, (∀ x : Int, 0 ≤ x → x ≤ 81 * n → w x = x) →
      classicalMultiply w A B = classicalMultiply id A B := by
    intro w hw
    by_cases h0 : n = 0
    · have hA0 : A = [] := List.eq_nil_of_length_eq_zero (by rw [hA.1, h0])
      subst hA0
      rfl
    · rw [← hfin w, ← hfin id]
      exact HasEntries.ext
        (classicalMultiplyState_exact w hw hA hdA hdB (by omega)).1
        (classicalMultiplyState_exact id hid hA hdA hdB (by omega)).1
        (fun _ _ _ _ => rfl)
  refine ⟨?_, hfin _, ?_, heq _ h32, ?_⟩
  · intro i0 k0 j0 _ hk _
    refine ⟨?_, (classicalMultiplyState_exact (wrap 32) h32 hA hdA hdB hk).2⟩
    exact HasEntries.ext
      (classicalMultiplyState_exact (wrap 32) h32 hA hdA hdB hk).1
      (classicalMultiplyState_exact id hid hA hdA hdB hk).1
      (fun _ _ _ _ => rfl)
  · rw [heq _ h32, heq _ h64]
  · intro i j hi hj
    rw [heq _ h32]
    exact getEntry_classicalMultiply hA.1 B hi hj

theorem classicalMultiply_widths_agree_witness :
    (∀ i0 k0 j0, i0 ≤ 2 → k0 < 2 → j0 ≤ 2 →
      classicalMultiplyState (wrap 32) [[9, 2], [3, 9]] [[5, 9], [9, 8]] i0 k0 j0 =
        classicalMultiplyState id [[9, 2], [3, 9]] [[5, 9], [9, 8]] i0 k0 j0 ∧
      ∀ r c, r < 2 → c < 2 →
        0 ≤ getEntry
          (classicalMultiplyState (wrap 32) [[9, 2], [3, 9]] [[5, 9], [9, 8]] i0 k0 j0) r c ∧
        getEntry
          (classicalMultiplyState (wrap 32) [[9, 2], [3, 9]] [[5, 9], [9, 8]] i0 k0 j0) r c ≤
            81 * (2 : Nat)) ∧
    classicalMultiplyState (wrap 32) [[9, 2], [3, 9]] [[5, 9], [9, 8]] 2 0 0 =
      classicalMultiply (wrap 32) [[9, 2], [3, 9]] [[5, 9], [9, 8]] ∧
    classicalMultiply (wrap 32) [[9, 2], [3, 9]] [[5, 9], [9, 8]] =
      classicalMultiply (wrap 64) [[9, 2], [3, 9]] [[5, 9], [9, 8]] ∧
    classicalMultiply (wrap 32) [[9, 2], [3, 9]] [[5, 9], [9, 8]] =
      classicalMultiply id [[9, 2], [3, 9]] [[5, 9], [9, 8]] ∧
    ∀ i j, i < 2 → j < 2 →
      getEntry (classicalMultiply (wrap 32) [[9, 2], [3, 9]] [[5, 9], [9, 8]]) i j =
        ∑ k in Finset.range 2,
          getEntry [[9, 2], [3, 9]] i k * getEntry [[5, 9], [9, 8]] k j :=
  classicalMultiply_widths_agree 2 [[9, 2], [3, 9]] [[5, 9], [9, 8]] (by decide) (by decide)
    (by decide) (by decide) (by decide)

/-- C14. With 32-bit wrap-around `int` arithmetic, for every `n = 2 ^ p <= 4096` and all
`n x n` matrices `A`, `B` with entries in `0..9`, `strassen(A, B)` returns the exact product:
its entry `(i, j)` is `sum over k < n of A[i][k] * B[k][j]`, which lies in `[0, 81 * n]`,
below `2 ^ 31`. -/
theorem strassen_wraparound_exact (p : Nat) (A B : Matrix) (hp : 2 ^ p ≤ 4096)
    (hA : IsSquare (2 ^ p) A) (hB : IsSquare (2 ^ p) B)
    (hdA : IsDigits (2 ^ p) A) (hdB : IsDigits (2 ^ p) B) :
    strassen (wrap 32) A B = some (classicalMultiply id A B) ∧
    ∀ i j, i < 2 ^ p → j < 2 ^ p →
      getEntry (classicalMultiply id A B) i j =
        ∑ k in Finset.range (2 ^ p), getEntry A i k * getEntry B k j ∧
      0 ≤ getEntry (classicalMultiply id A B) i j ∧
      getEntry (classicalMultiply id A B) i j ≤ 81 * (2 ^ p : Nat) ∧
      (81 * (2 ^ p : Nat) : Int) < 2 ^ 31 := by
  have hlt : p < A.length + 1 := by
    rw [hA.1]
    exact Nat.lt_succ_of_lt (Nat.lt_two_pow p)
  have hcast : ((2 ^ p : Nat) : Int) ≤ 4096 := by exact_mod_cast hp
  constructor
  · obtain ⟨C, hC, hE⟩ := strassenFuel_wrap 32 p (A.length + 1) hlt A B A B
      (Congruent.refl hA) (Congruent.refl hB)
    have hCP : C = classicalMultiply id A B :=
      HasEntries.ext hE (HasEntries.self (isSquare_classicalMultiply id hA.1 B))
        (fun i j hi hj => by
          obtain ⟨lo, hi2⟩ := classicalMultiply_digits_bounds hA hdA hdB hi hj
          exact wrap_32_exact hp _ lo hi2)
    unfold strassen
    rw [hC, hCP]; rfl
  · intro i j hi hj
    obtain ⟨lo, hi2⟩ := classicalMultiply_digits_bounds hA hdA hdB hi hj
    exact ⟨getEntry_classicalMultiply hA.1 B hi hj, lo, hi2, by omega⟩

theorem strassen_wraparound_exact_witness :
    strassen (wrap 32) [[9, 2], [3, 9]] [[5, 9], [9, 8]] =
      some (classicalMultiply id [[9, 2], [3, 9]] [[5, 9], [9, 8]]) ∧
    ∀ i j, i < 2 ^ 1 → j < 2 ^ 1 →
      getEntry (classicalMultiply id [[9, 2], [3, 9]] [[5, 9], [9, 8]]) i j =
        ∑ k in Finset.range (2 ^ 1),
          getEntry [[9, 2], [3, 9]] i k * getEntry [[5, 9], [9, 8]] k j ∧
      0 ≤ getEntry (classicalMultiply id [[9, 2], [3, 9]] [[5, 9], [9, 8]]) i j ∧
      getEntry (classicalMultiply id [[9, 2], [3, 9]] [[5, 9], [9, 8]]) i j ≤
        81 * (2 ^ 1 : Nat) ∧
      (81 * (2 ^ 1 : Nat) : Int) < 2 ^ 31 :=
  strassen_wraparound_exact 1 [[9, 2], [3, 9]] [[5, 9], [9, 8]] (by decide) (by decide)
    (by decide) (by decide) (by decide)

/-- C16. Index safety: on `n x n` operands every element access of `add`, `subtract` and
`classicalMultiply` is in range, and for `n >= 1` so is every access of `strassen` (the
quadrant reads and writes, the accesses of `add` and `subtract` on the quadrants and on the
recursive results, the accesses of the recursive calls and the writes of the reassembly):
the runs with checked accesses return the matrices of the unchecked runs. -/
theorem index_safety (w : Int → Int) (n : Nat) (A B : Matrix)
    (hA : IsSquare n A) (hB : IsSquare n B) :
    addChecked w A B = .ok (add w A B) ∧
    subtractChecked w A B = .ok (subtract w A B) ∧
    classicalMultiplyChecked w A B = .ok (classicalMultiply w A B) ∧
    splitQuadrantsChecked (n / 2) A B = .ok (splitQuadrants (n / 2) A B) ∧
    (1 ≤ n → ∀ fuel, Nat.log 2 n < fuel →
      ∃ r, strassenFuel w fuel A B = some r ∧ strassenChecked w fuel A B = .ok r.1) ∧
    (1 ≤ n → ∃ C, strassen w A B = some C ∧ strassenChecked w (A.length + 1) A B = .ok C) := by
  refine ⟨addChecked_ok w hA hB, subtractChecked_ok w hA hB,
    classicalMultiplyChecked_ok w hA hB, splitQuadrantsChecked_ok (by omega) hA hB, ?_, ?_⟩
  · intro hn fuel hf
    obtain ⟨r, e, c, _⟩ := strassenChecked_ok w fuel n hn hf A B hA hB
    exact ⟨r, e, c⟩
  · intro hn
    obtain ⟨r, e, c, _⟩ := strassenChecked_ok w (A.length + 1) n hn
      (by rw [hA.1]; exact log_two_lt_succ n) A B hA hB
    exact ⟨r.1, by unfold strassen; rw [e]; rfl, c⟩

theorem index_safety_witness :
    addChecked id [[1, 2, 3], [4, 5, 6], [7, 8, 9]] [[1, 0, 2], [0, 1, 0], [3, 0, 1]] =
      .ok (add id [[1, 2, 3], [4, 5, 6], [7, 8, 9]] [[1, 0, 2], [0, 1, 0], [3, 0, 1]]) ∧
    subtractChecked id [[1, 2, 3], [4, 5, 6], [7, 8, 9]] [[1, 0, 2], [0, 1, 0], [3, 0, 1]] =
      .ok (subtract id [[1, 2, 3], [4, 5, 6], [7, 8, 9]] [[1, 0, 2], [0, 1, 0], [3, 0, 1]]) ∧
    classicalMultiplyChecked id [[1, 2, 3], [4, 5, 6], [7, 8, 9]]
        [[1, 0, 2], [0, 1, 0], [3, 0, 1]] =
      .ok (classicalMultiply id [[1, 2, 3], [4, 5, 6], [7, 8, 9]]
        [[1, 0, 2], [0, 1, 0], [3, 0, 1]]) ∧
    splitQuadrantsChecked (3 / 2) [[1, 2, 3], [4, 5, 6], [7, 8, 9]]
        [[1, 0, 2], [0, 1, 0], [3, 0, 1]] =
      .ok (splitQuadrants (3 / 2) [[1, 2, 3], [4, 5, 6], [7, 8, 9]]
        [[1, 0, 2], [0, 1, 0], [3, 0, 1]]) ∧
    (1 ≤ 3 → ∀ fuel, Nat.log 2 3 < fuel →
      ∃ r, strassenFuel id fuel [[1, 2, 3], [4, 5, 6], [7, 8, 9]]
          [[1, 0, 2], [0, 1, 0], [3, 0, 1]] = some r ∧
        strassenChecked id fuel [[1, 2, 3], [4, 5, 6], [7, 8, 9]]
          [[1, 0, 2], [0, 1, 0], [3, 0, 1]] = .ok r.1) ∧
    (1 ≤ 3 → ∃ C, strassen id [[1, 2, 3], [4, 5, 6], [7, 8, 9]]
        [[1, 0, 2], [0, 1, 0], [3, 0, 1]] = some C ∧
      strassenChecked id (([[1, 2, 3], [4, 5, 6], [7, 8, 9]] : Matrix).length + 1)
        [[1, 2, 3], [4, 5, 6], [7, 8, 9]] [[1, 0, 2], [0, 1, 0], [3, 0, 1]] = .ok C) :=
  index_safety id 3 [[1, 2, 3], [4, 5, 6], [7, 8, 9]] [[1, 0, 2], [0, 1, 0], [3, 0, 1]]
    (by decide) (by decide)

end Performance
